import Mathlib

/-!
Verification of the libtjson JSON tree library.

The development is a shallow embedding of the C sources:
* `json.c` — the tree algebra (constructors, append, lookup, iterate, print),
* `json_parser.y` — the grammar actions, string unescaping (`get_charstr`,
  `escape`), and the process-wide `root` slot,
* `lexan.l` — the flex tokenizer.

C strings (`char *`) are modelled as `Option (List Char)` when nullable and
`List Char` otherwise; machine integers as `Nat`/`Int` with explicit wrapping
where the source converts between widths; heap allocation is modelled as
always succeeding; `fprintf` output is modelled as the emitted list of
characters.  The intrusive `pFirst`/`pNext` sibling chain of a container is
modelled as a `List JNode`, with a boolean recording whether `pLast` points at
the tail of that chain (the grammar builds containers with `pLast == NULL`,
the append operations keep `pLast` at the tail).
-/

/-- `JType` from `json.h`: the node-level kind tag. -/
inductive JType where
  | JSON_INVALID
  | JSON_ARRAY
  | JSON_OBJECT
  | JSON_VAR
  | JSON_BOOL
deriving DecidableEq, Repr

/-- `JVarType` from `json.h`: the scalar kind tag of a `JVar` payload. -/
inductive JVarType where
  | JVARTYPE_INVALID
  | JVARTYPE_UINT16
  | JVARTYPE_INT16
  | JVARTYPE_UINT32
  | JVARTYPE_INT32
  | JVARTYPE_UINT64
  | JVARTYPE_INT64
  | JVARTYPE_FLOAT
  | JVARTYPE_STR
  | JVARTYPE_BLOB
deriving DecidableEq, Repr

/-- `JVarData` from `json.h`: the value union.  The source always reads the
member it last wrote (selected by `JVarType`), so the union is modelled as a
sum.  `ui 0` doubles as the all-zero-bytes state produced by `calloc`.
The `f` constructor carries the literal text the float was parsed from:
IEEE-754 values and `%f` formatting are not modelled (no claim depends on a
float payload). -/
inductive JVarData where
  | ui (v : Nat)
  | i (v : Int)
  | ul (v : Nat)
  | l (v : Int)
  | ull (v : Nat)
  | ll (v : Int)
  | f (text : List Char)
  | str (s : List Char)
  | blob
deriving DecidableEq, Repr

/-- `JVarObject` from `json.h` (type, length, value). -/
structure JVarObject where
  type : JVarType
  len : Nat
  val : JVarData
deriving DecidableEq, Repr

/-- A tree node: `JArray`/`JObject`/`JVar` from `json.h`.  The common `JNode`
header (kind tag / name / next link) is folded in: `name` is the header name,
the `pNext` chains are represented by the parent's `children` list, and the
kind tag is the constructor (for `JVar` the tag is carried explicitly since
`JSON_Bool` retags a `JVar` as `JSON_BOOL`).  `count` is the `n` field and
`lastIsTail` records whether `pLast` points at the tail of the `pFirst` chain
(`false` models `pLast == NULL`). -/
inductive JNode where
  | JArray (name : Option (List Char)) (count : Nat) (children : List JNode)
      (lastIsTail : Bool)
  | JObject (name : Option (List Char)) (count : Nat) (children : List JNode)
      (lastIsTail : Bool)
  | JVar (tag : JType) (name : Option (List Char)) (var : JVarObject)

/-- The node-level kind tag (`node.type` in the source). -/
def JNode.ntype : JNode → JType
  | .JArray _ _ _ _ => .JSON_ARRAY
  | .JObject _ _ _ _ => .JSON_OBJECT
  | .JVar tag _ _ => tag

/-- The header name (`node.name`). -/
def JNode.nname : JNode → Option (List Char)
  | .JArray nm _ _ _ => nm
  | .JObject nm _ _ _ => nm
  | .JVar _ nm _ => nm

/-- The scalar kind of a `JVar` node (`JVARTYPE_INVALID` for containers,
which have no `var` field). -/
def JNode.vtype : JNode → JVarType
  | .JVar _ _ v => v.type
  | _ => .JVARTYPE_INVALID

/-- The `n` field of a container (0 for a `JVar`, which has none). -/
def JNode.countOf : JNode → Nat
  | .JArray _ n _ _ => n
  | .JObject _ n _ _ => n
  | .JVar _ _ _ => 0

/-- The `pFirst` sibling chain of a container. -/
def JNode.chain : JNode → List JNode
  | .JArray _ _ kids _ => kids
  | .JObject _ _ kids _ => kids
  | .JVar _ _ _ => []

/-- errno value `EOK` (0). -/
def EOK : Int := 0
/-- errno value `EINVAL` (22 on Linux). -/
def EINVAL : Int := 22
/-- errno value `ENOTSUP` (95 on Linux). -/
def ENOTSUP : Int := 95

/-- `JSON_Array`: a fresh array (`calloc` zeroes `n`, `pFirst`, `pLast`). -/
def JSON_Array (name : Option (List Char)) : JNode := .JArray name 0 [] false

/-- `JSON_Object`: a fresh object. -/
def JSON_Object (name : Option (List Char)) : JNode := .JObject name 0 [] false

/-- `JSON_Var`: a fresh variable node; the zeroed `var` field reads back as
`JVARTYPE_INVALID` with value bytes 0. -/
def JSON_Var (name : Option (List Char)) : JNode :=
  .JVar .JSON_VAR name ⟨.JVARTYPE_INVALID, 0, .ui 0⟩

/-- `JSON_Num`: a 32-bit unsigned variable; the `int` argument is converted
to `uint32_t` (reduction mod 2^32). -/
def JSON_Num (name : Option (List Char)) (num : Int) : JNode :=
  .JVar .JSON_VAR name ⟨.JVARTYPE_UINT32, 4, .ul ((num % 4294967296).toNat)⟩

/-- `JSON_Float`: a float variable.  The IEEE value is not modelled; the
constructor records the literal text it was converted from. -/
def JSON_Float (name : Option (List Char)) (numText : List Char) : JNode :=
  .JVar .JSON_VAR name ⟨.JVARTYPE_FLOAT, 4, .f numText⟩

/-- `JSON_Bool`: a `JVar` retagged `JSON_BOOL`, 16-bit unsigned payload
`(num > 0) ? 1 : 0`. -/
def JSON_Bool (name : Option (List Char)) (num : Int) : JNode :=
  .JVar .JSON_BOOL name ⟨.JVARTYPE_UINT16, 2, .ui (if num > 0 then 1 else 0)⟩

/-- `JSON_Str`: a string variable taking ownership of `str`; when `str` is
null the fresh variable is returned with its kind still unset. -/
def JSON_Str (name : Option (List Char)) (str : Option (List Char)) : JNode :=
  match str with
  | none => JSON_Var name
  | some s => .JVar .JSON_VAR name ⟨.JVARTYPE_STR, s.length, .str s⟩

/-- `isspace` for the `strtoll`/`strtoull` leading-whitespace skip. -/
def c_isspace (c : Char) : Bool :=
  c = ' ' ∨ c = '\t' ∨ c = '\n' ∨ c = '\x0b' ∨ c = '\x0c' ∨ c = '\r'

/-- Decimal digit test. -/
def c_isdigit (c : Char) : Bool := 48 ≤ c.toNat ∧ c.toNat ≤ 57

/-- Accumulate the value of a leading run of decimal digits, stopping at the
first non-digit (as `strtol` does). -/
def decDigitsAcc : List Char → Nat → Nat
  | [], acc => acc
  | c :: rest, acc =>
      if c_isdigit c then decDigitsAcc rest (acc * 10 + (c.toNat - 48)) else acc

/-- The sign-and-digits part of `strtoull` after the whitespace skip:
optional sign, decimal digits; out-of-range values saturate to
`ULLONG_MAX`; a `-` sign negates the value in the return type (mod 2^64). -/
def strtoull_core : List Char → Nat
  | [] => 0
  | c :: r =>
      if c = '-' then
        (2 ^ 64 - min (decDigitsAcc r 0) (2 ^ 64 - 1)) % 2 ^ 64
      else if c = '+' then min (decDigitsAcc r 0) (2 ^ 64 - 1)
      else min (decDigitsAcc (c :: r) 0) (2 ^ 64 - 1)

/-- `strtoull(s, NULL, 10)`. -/
def strtoull_model (cs : List Char) : Nat :=
  strtoull_core (cs.dropWhile c_isspace)

/-- The sign-and-digits part of `strtoll` after the whitespace skip,
saturating to `[LLONG_MIN, LLONG_MAX]`. -/
def strtoll_core : List Char → Int
  | [] => 0
  | c :: r =>
      if c = '-' then max (-(decDigitsAcc r 0 : Int)) (-(2 ^ 63))
      else if c = '+' then min ((decDigitsAcc r 0 : Int)) (2 ^ 63 - 1)
      else min ((decDigitsAcc (c :: r) 0 : Int)) (2 ^ 63 - 1)

/-- `strtoll(s, NULL, 10)`. -/
def strtoll_model (cs : List Char) : Int :=
  strtoll_core (cs.dropWhile c_isspace)

/-- `(int16_t)` conversion of a signed 64-bit value. -/
def toInt16 (x : Int) : Int := (x + 32768) % 65536 - 32768

/-- `(int32_t)` conversion of a signed 64-bit value. -/
def toInt32 (x : Int) : Int := (x + 2147483648) % 4294967296 - 2147483648

/-- `(uint16_t)` conversion. -/
def toUInt16c (x : Nat) : Nat := x % 65536

/-- `(uint32_t)` conversion. -/
def toUInt32c (x : Nat) : Nat := x % 4294967296

/-- `JSON_ParseNumber` from `json.c`: build a fresh `JVar`; when the literal
text is non-null classify it by the strict thresholds of the source and store
the converted value; when it is null the fresh variable is returned
unchanged.  `none` models the `NULL` return, which the source produces only
when allocation fails (allocation is modelled as succeeding). -/
def JSON_ParseNumber (name : Option (List Char)) (numstr : Option (List Char)) :
    Option JNode :=
  match numstr with
  | none => some (JSON_Var name)
  | some cs =>
      if cs.headD (Char.ofNat 0) = '-' then
        let lli := strtoll_model cs
        if -32768 < lli ∧ lli < 32767 then
          some (.JVar .JSON_VAR name ⟨.JVARTYPE_INT16, 2, .i (toInt16 lli)⟩)
        else if -2147483648 < lli ∧ lli < 2147483647 then
          some (.JVar .JSON_VAR name ⟨.JVARTYPE_INT32, 4, .l (toInt32 lli)⟩)
        else
          some (.JVar .JSON_VAR name ⟨.JVARTYPE_INT64, 8, .ll lli⟩)
      else
        let llu := strtoull_model cs
        if llu < 65535 then
          some (.JVar .JSON_VAR name ⟨.JVARTYPE_UINT16, 2, .ui (toUInt16c llu)⟩)
        else if llu < 4294967295 then
          some (.JVar .JSON_VAR name ⟨.JVARTYPE_UINT32, 4, .ul (toUInt32c llu)⟩)
        else
          some (.JVar .JSON_VAR name ⟨.JVARTYPE_UINT64, 8, .ull llu⟩)

/-- `JSON_ArrayAdd` from `json.c`.  Returns the result code and the updated
array (the source mutates `pArray` in place).  The second argument is typed
`JObject *` in the header but is only ever cast to `JNode *`.  Note the
source never updates the `n` count field. -/
def JSON_ArrayAdd (pArray : Option JNode) (pObject : Option JNode) :
    Int × Option JNode :=
  match pArray, pObject with
  | some a, some node =>
      match a with
      | .JArray nm n kids lastTail =>
          if kids.isEmpty then (EOK, some (.JArray nm n [node] true))
          else if lastTail then (EOK, some (.JArray nm n (kids ++ [node]) true))
          else (EINVAL, some a)
      | other => (ENOTSUP, some other)
  | _, _ => (EINVAL, pArray)

/-- `JSON_ObjectAdd` from `json.c`: same structure as `JSON_ArrayAdd` but
requires the `JSON_OBJECT` tag. -/
def JSON_ObjectAdd (pObject : Option JNode) (pNode : Option JNode) :
    Int × Option JNode :=
  match pObject, pNode with
  | some o, some node =>
      match o with
      | .JObject nm n kids lastTail =>
          if kids.isEmpty then (EOK, some (.JObject nm n [node] true))
          else if lastTail then (EOK, some (.JObject nm n (kids ++ [node]) true))
          else (EINVAL, some o)
      | other => (ENOTSUP, some other)
  | _, _ => (EINVAL, pObject)

/-- The index-walking loop of `JSON_Index`: walk the chain comparing the
running position `n` with `idx`. -/
def json_indexLoop : List JNode → Nat → Nat → Option JNode
  | [], _, _ => none
  | x :: rest, idx, n =>
      if idx = n then some x else json_indexLoop rest idx (n + 1)

/-- `JSON_Index` from `json.c`: `i`-th element of an array's chain, `NULL`
when the argument is null or not tagged `JSON_ARRAY`. -/
def JSON_Index (pArray : Option JNode) (idx : Nat) : Option JNode :=
  match pArray with
  | some (.JArray _ _ kids _) => json_indexLoop kids idx 0
  | _ => none

/-- The iteration loop of `JSON_Iterate`: apply `fn` to every chain element,
replacing the running result by each non-`EOK` return code. -/
def json_iterLoop {α : Type} (fn : JNode → α → Int) (arg : α) :
    List JNode → Int → Int
  | [], result => result
  | x :: rest, result =>
      json_iterLoop fn arg rest (if fn x arg ≠ EOK then fn x arg else result)

/-- `JSON_Iterate` from `json.c`: `EINVAL` on a null array or callback,
`ENOTSUP` when the node is not tagged `JSON_ARRAY`, otherwise the loop above
started from `EOK`. -/
def JSON_Iterate {α : Type} (pArray : Option JNode)
    (fn : Option (JNode → α → Int)) (arg : α) : Int :=
  match pArray, fn with
  | some a, some f =>
      match a with
      | .JArray _ _ kids _ => json_iterLoop f arg kids EOK
      | _ => ENOTSUP
  | _, _ => EINVAL

/-- Decimal digit character. -/
def digitChar (d : Nat) : Char := Char.ofNat (48 + d)

/-- Decimal digits of `n`, most significant first (fuel-driven so that the
kernel can evaluate it; `fuel = n + 1` always suffices since `n / 10 < n`). -/
def natDecimalAux : Nat → Nat → List Char
  | 0, _ => []
  | fuel + 1, n =>
      if n < 10 then [digitChar n]
      else natDecimalAux fuel (n / 10) ++ [digitChar (n % 10)]

/-- Decimal digits of `n`, most significant first. -/
def natDecimal (n : Nat) : List Char := natDecimalAux (n + 1) n

/-- `printf("%d", x)` for an in-range `int` value. -/
def printf_d (x : Int) : List Char :=
  if x < 0 then '-' :: natDecimal (-x).toNat else natDecimal x.toNat

/-- The `int` value that `%d` sees when handed a `uint32_t`: reinterpretation
of the 32-bit pattern as signed. -/
def int32Of (k : Nat) : Int := if k < 2 ^ 31 then (k : Int) else (k : Int) - 2 ^ 32

/-- Union read of the `ui` member (the source only ever reads the member
selected by the stored `JVarType`; other cases are unreachable and read 0). -/
def JVarData.uiRead : JVarData → Nat
  | .ui v => v
  | _ => 0

/-- Union read of the `ul` member. -/
def JVarData.ulRead : JVarData → Nat
  | .ul v => v
  | _ => 0

/-- Union read of the `str` member. -/
def JVarData.strRead : JVarData → List Char
  | .str s => s
  | _ => []

/-- Union read of the float member's recorded literal text. -/
def JVarData.fRead : JVarData → List Char
  | .f t => t
  | _ => []

/-- Stand-in for `fprintf(fp, "%f", v)`: IEEE-754 default formatting is not
modelled; the recorded literal text is emitted instead.  No claim depends on
this branch (the round-trip class below excludes float variables). -/
def float_printed (text : List Char) : List Char := text

/-- `json_PrintValue` from `json.c`: `true`/`"false "` for a `JSON_BOOL`
node (note the trailing space in the false branch of the source), otherwise
dispatch on the scalar kind; kinds without a case (signed and 64-bit
integers, blob, invalid) print nothing. -/
def json_PrintValue (tag : JType) (v : JVarObject) : List Char :=
  if tag = .JSON_BOOL then
    if v.val.uiRead > 0 then "true".data else "false ".data
  else
    match v.type with
    | .JVARTYPE_UINT16 => printf_d v.val.uiRead
    | .JVARTYPE_UINT32 => printf_d (int32Of v.val.ulRead)
    | .JVARTYPE_FLOAT => float_printed v.val.fRead
    | .JVARTYPE_STR => '"' :: v.val.strRead ++ ['"']
    | _ => []

/-- The leading comma of `JSON_Print`. -/
def printLead (comma : Bool) : List Char := if comma then [','] else []

/-- The `"\"%s\" : "` name prefix of `JSON_Print` (emitted whenever the node
has a name). -/
def printName : Option (List Char) → List Char
  | none => []
  | some nm => '"' :: nm ++ '"' :: ' ' :: ':' :: ' ' :: []

mutual
/-- `JSON_Print` from `json.c`, modelled as the emitted characters: leading
comma, name prefix, then brackets around the children (first child printed
without a comma, the rest with one) or the scalar value. -/
def JSON_Print : JNode → Bool → List Char
  | .JArray nm _ kids _, comma =>
      printLead comma ++ printName nm ++ '[' :: JSON_PrintFirst kids ++ [']']
  | .JObject nm _ kids _, comma =>
      printLead comma ++ printName nm ++ '{' :: JSON_PrintFirst kids ++ ['}']
  | .JVar tag nm v, comma =>
      printLead comma ++ printName nm ++
        (match tag with
         | .JSON_BOOL => json_PrintValue tag v
         | .JSON_VAR => json_PrintValue tag v
         | _ => [])

/-- The child loop of `JSON_Print` at its start: the first child is printed
without a leading comma. -/
def JSON_PrintFirst : List JNode → List Char
  | [] => []
  | x :: rest => JSON_Print x false ++ JSON_PrintRest rest

/-- The child loop of `JSON_Print` after the first child: every further
child is printed with a leading comma. -/
def JSON_PrintRest : List JNode → List Char
  | [] => []
  | x :: rest => JSON_Print x true ++ JSON_PrintRest rest
end

/-- The token kinds of `json_parser.y` that `lexan.l` can emit (`DQUOTE` and
`ID`-unrelated tokens that no lexer rule produces are omitted where unused;
text-carrying tokens record `yytext`). -/
inductive Token where
  | LBRACE
  | RBRACE
  | LBRACKET
  | RBRACKET
  | COMMA
  | SEMI
  | DOT
  | COLON
  | TRUE
  | FALSE
  | ID (text : List Char)
  | NUM (text : List Char)
  | FLOAT (text : List Char)
  | CHARSTR (text : List Char)
deriving DecidableEq, Repr

/-- First character of the `id` pattern: `[a-zA-Z_]`. -/
def isIdStart (c : Char) : Bool :=
  (97 ≤ c.toNat ∧ c.toNat ≤ 122) ∨ (65 ≤ c.toNat ∧ c.toNat ≤ 90) ∨ c = '_'

/-- Continuation character of the `id` pattern. -/
def isIdChar (c : Char) : Bool := isIdStart c ∨ c_isdigit c

/-- The digit part of the `num` pattern after the optional sign: either a
single digit (the only possibility when the first digit is `0`, since
`{nzdigit}{digit}*` cannot start with `0`) or a nonzero digit followed by a
maximal digit run. -/
def numBody (sign : List Char) : List Char → Option (List Char × List Char)
  | [] => none
  | c :: r =>
      if c_isdigit c then
        if c = '0' then some (sign ++ ['0'], r)
        else some (sign ++ c :: r.takeWhile c_isdigit, r.dropWhile c_isdigit)
      else none

/-- Longest match of the `num` pattern `[-]?({digit}|{nzdigit}{digit}*)`. -/
def matchNum (cs : List Char) : Option (List Char × List Char) :=
  match cs with
  | [] => none
  | c :: r0 => if c = '-' then numBody ['-'] r0 else numBody [] (c :: r0)

/-- The exponent digits of the `floatnum` pattern after `[eE][-+]?`: when
the digit run is empty the exponent is not part of the match and the text
matched so far is returned with the input resumed at the `e`. -/
def floatExpDigits (base : List Char) (e : Char) (es : List Char)
    (r2 : List Char) (cs4 : List Char) : Option (List Char × List Char) :=
  let xs := r2.takeWhile c_isdigit
  if xs.isEmpty then some (base, cs4)
  else some (base ++ e :: es ++ xs, r2.dropWhile c_isdigit)

/-- The optional exponent sign of the `floatnum` pattern. -/
def floatExpSign (base : List Char) (e : Char) (r1 : List Char)
    (cs4 : List Char) : Option (List Char × List Char) :=
  match r1 with
  | [] => floatExpDigits base e [] [] cs4
  | c2 :: rr =>
      if c2 = '-' then floatExpDigits base e ['-'] rr cs4
      else if c2 = '+' then floatExpDigits base e ['+'] rr cs4
      else floatExpDigits base e [] (c2 :: rr) cs4

/-- The optional `[eE][-+]?[0-9]+` suffix of the `floatnum` pattern. -/
def floatExp (base : List Char) : List Char → Option (List Char × List Char)
  | [] => some (base, [])
  | e :: r1 =>
      if e = 'e' ∨ e = 'E' then floatExpSign base e r1 (e :: r1)
      else some (base, e :: r1)

/-- The mandatory `\.[0-9]+` part of the `floatnum` pattern, applied to the
input after the integer digits; `pre` is the text matched so far. -/
def floatAfterInt (pre : List Char) : List Char → Option (List Char × List Char)
  | [] => none
  | c :: cs3 =>
      if c = '.' then
        let fs := cs3.takeWhile c_isdigit
        if fs.isEmpty then none
        else floatExp (pre ++ '.' :: fs) (cs3.dropWhile c_isdigit)
      else none

/-- The `floatnum` pattern after the optional sign. -/
def floatBody (sign : List Char) (cs1 : List Char) :
    Option (List Char × List Char) :=
  floatAfterInt (sign ++ cs1.takeWhile c_isdigit) (cs1.dropWhile c_isdigit)

/-- Longest match of the `floatnum` pattern
`[-+]?[0-9]*\.[0-9]+([eE][-+]?[0-9]+)?`. -/
def matchFloat (cs : List Char) : Option (List Char × List Char) :=
  match cs with
  | [] => none
  | c :: r0 =>
      if c = '-' then floatBody ['-'] r0
      else if c = '+' then floatBody ['+'] r0
      else floatBody [] (c :: r0)

/-- Prepend a character to the matched text of a scan result. -/
def consPrefix (c : Char) : Option (List Char × List Char) →
    Option (List Char × List Char)
  | some (b, r) => some (c :: b, r)
  | none => none

mutual
/-- Scan the body of the `charstr` pattern `\"([^"\\]|\\.)*\"` after the
opening quote: plain characters other than quote and backslash, or a
backslash followed by any character except newline (flex `.`), up to and
including the closing quote.  `none` when no closing quote is reachable. -/
def scanCharstrBody : List Char → Option (List Char × List Char)
  | [] => none
  | c :: rest =>
      if c = '"' then some (['"'], rest)
      else if c = '\\' then scanCharstrEsc rest
      else consPrefix c (scanCharstrBody rest)

/-- The character a backslash consumes inside a `charstr` match (flex `.`
does not match a newline). -/
def scanCharstrEsc : List Char → Option (List Char × List Char)
  | [] => none
  | d :: rest2 =>
      if d = '\n' then none
      else consPrefix '\\' (consPrefix d (scanCharstrBody rest2))
end

/-- After a leading `/`: a second `/` starts a `comment` match consuming
the rest of the line (the terminating newline is left for the `nl` rule);
otherwise the `/` matches no rule and is echoed and skipped by the flex
default rule. -/
def skipComment : List Char → Option (Option Token × List Char)
  | [] => some (none, [])
  | d :: tail =>
      if d = '/' then some (none, tail.dropWhile (fun e => ¬ e = '\n'))
      else some (none, d :: tail)

/-- One step of the flex scanner: longest-match with the rule order of
`lexan.l`.  `some (none, rest)` is a skipped prefix (whitespace, newline,
comment, or the default rule echoing an unmatched character); `some (tok,
rest)` is an emitted token; `none` is end of input.  Whitespace runs are
consumed one character at a time, which yields the same token stream as the
maximal-munch `{ws}` rule since blanks occur in no other pattern. -/
def nextToken : List Char → Option (Option Token × List Char)
  | [] => none
  | c :: cs =>
      if c = ' ' ∨ c = '\t' then some (none, cs)
      else if c = '\n' then some (none, cs)
      else if c = '/' then skipComment cs
      else if c = '{' then some (some .LBRACE, cs)
      else if c = '}' then some (some .RBRACE, cs)
      else if c = '[' then some (some .LBRACKET, cs)
      else if c = ']' then some (some .RBRACKET, cs)
      else if c = ',' then some (some .COMMA, cs)
      else if c = ';' then some (some .SEMI, cs)
      else if c = ':' then some (some .COLON, cs)
      else if c = '"' then
        match scanCharstrBody cs with
        | some (b, r) => some (some (.CHARSTR ('"' :: b)), r)
        | none => some (none, cs)
      else if isIdStart c then
        let run := c :: cs.takeWhile isIdChar
        let rest := cs.dropWhile isIdChar
        if run = "true".data then some (some .TRUE, rest)
        else if run = "false".data then some (some .FALSE, rest)
        else some (some (.ID run), rest)
      else if c = '.' then
        match matchFloat (c :: cs) with
        | some (t, r) => some (some (.FLOAT t), r)
        | none => some (some .DOT, cs)
      else if c_isdigit c ∨ c = '-' ∨ c = '+' then
        match matchNum (c :: cs), matchFloat (c :: cs) with
        | some (nt, nr), some (ft, fr) =>
            if nt.length < ft.length then some (some (.FLOAT ft), fr)
            else some (some (.NUM nt), nr)
        | some (nt, nr), none => some (some (.NUM nt), nr)
        | none, some (ft, fr) => some (some (.FLOAT ft), fr)
        | none, none => some (none, cs)
      else some (none, cs)

/-- Fuel-driven scanner loop; one unit of fuel per `nextToken` step, and
every step consumes at least one character, so `fuel = cs.length` always
suffices. -/
def tokenizeAux : Nat → List Char → List Token
  | 0, _ => []
  | fuel + 1, cs =>
      match nextToken cs with
      | none => []
      | some (none, rest) => tokenizeAux fuel rest
      | some (some t, rest) => t :: tokenizeAux fuel rest

/-- The token stream of a character buffer. -/
def tokenize (cs : List Char) : List Token := tokenizeAux cs.length cs

/-- `escape` from `json_parser.y`: the escape table, identity on every
other character. -/
def escape (c : Char) : Char :=
  if c = '\\' then '\\'
  else if c = '0' then Char.ofNat 0
  else if c = 'r' then '\r'
  else if c = 'n' then '\n'
  else if c = 't' then '\t'
  else if c = Char.ofNat 39 then Char.ofNat 39
  else if c = '"' then '"'
  else c

/-- The escape-processing state machine of `get_charstr`: state 0 copies
characters and switches to state 1 on a backslash; state 1 stores
`escape c` and returns to state 0.  A trailing lone backslash is consumed
with nothing stored. -/
def unescapeSM : Nat → List Char → List Char
  | _, [] => []
  | 0, c :: rest =>
      if c = '\\' then unescapeSM 1 rest else c :: unescapeSM 0 rest
  | _ + 1, c :: rest => escape c :: unescapeSM 0 rest

/-- The escape scan of `get_charstr`, started in state 0. -/
def json_unescape (l : List Char) : List Char := unescapeSM 0 l

/-- `get_charstr` from `json_parser.y`: drop the leading quote, drop the
trailing quote, and run the escape state machine over what remains.
`none` models the `NULL` return for a `NULL` argument (`strdup` is modelled
as succeeding). -/
def get_charstr (str : Option (List Char)) : Option (List Char) :=
  match str with
  | none => none
  | some tok =>
      let s := tok.drop 1
      some (json_unescape (s.take (s.length - 1)))

/-- Rename a node (`$$->name = (char *)$1` in the `attribute` action). -/
def JNode.withName : JNode → Option (List Char) → JNode
  | .JArray _ n k l, nm => .JArray nm n k l
  | .JObject _ n k l, nm => .JObject nm n k l
  | .JVar t _ v, nm => .JVar t nm v

mutual
/-- The `json` production: a `json_list` or a `json_object`, selected by the
lookahead token as the LALR automaton does. -/
def p_json : Nat → List Token → Option (JNode × List Token)
  | 0, _ => none
  | fuel + 1, ts =>
      match ts with
      | .LBRACKET :: _ => p_json_list fuel ts
      | .LBRACE :: _ => p_json_object fuel ts
      | _ => none

/-- The `json_object` production `LBRACE attribute_list RBRACE`: a fresh
unnamed `JObject` whose `pFirst` is set to the attribute chain (`n` and
`pLast` stay zeroed). -/
def p_json_object : Nat → List Token → Option (JNode × List Token)
  | 0, _ => none
  | fuel + 1, ts =>
      match ts with
      | .LBRACE :: ts1 =>
          match p_attribute_list fuel ts1 with
          | some (kids, .RBRACE :: ts2) => some (.JObject none 0 kids false, ts2)
          | _ => none
      | _ => none

/-- The `json_list` production `LBRACKET value_list RBRACKET`: a fresh
unnamed `JArray` whose `pFirst` is set to the value chain. -/
def p_json_list : Nat → List Token → Option (JNode × List Token)
  | 0, _ => none
  | fuel + 1, ts =>
      match ts with
      | .LBRACKET :: ts1 =>
          match p_value_list fuel ts1 with
          | some (kids, .RBRACKET :: ts2) => some (.JArray none 0 kids false, ts2)
          | _ => none
      | _ => none

/-- The `value_list` production `value COMMA value_list | value`; the comma
chains the values through `pNext`.  After a comma the recursion is committed,
as in the LALR automaton. -/
def p_value_list : Nat → List Token → Option (List JNode × List Token)
  | 0, _ => none
  | fuel + 1, ts =>
      match p_value fuel ts with
      | some (v, .COMMA :: ts1) =>
          match p_value_list fuel ts1 with
          | some (vs, ts2) => some (v :: vs, ts2)
          | none => none
      | some (v, ts1) => some ([v], ts1)
      | none => none

/-- The `attribute_list` production `attribute COMMA attribute_list |
attribute`. -/
def p_attribute_list : Nat → List Token → Option (List JNode × List Token)
  | 0, _ => none
  | fuel + 1, ts =>
      match p_attribute fuel ts with
      | some (v, .COMMA :: ts1) =>
          match p_attribute_list fuel ts1 with
          | some (vs, ts2) => some (v :: vs, ts2)
          | none => none
      | some (v, ts1) => some ([v], ts1)
      | none => none

/-- The `attribute` production `key COLON value`: the decoded key becomes
the value node's name (`key := CHARSTR` decoded by `get_charstr`). -/
def p_attribute : Nat → List Token → Option (JNode × List Token)
  | 0, _ => none
  | fuel + 1, ts =>
      match ts with
      | .CHARSTR ktext :: .COLON :: ts1 =>
          match p_value fuel ts1 with
          | some (v, ts2) => some (v.withName (get_charstr (some ktext)), ts2)
          | none => none
      | _ => none

/-- The `value` production: a number, float, boolean, string, or nested
`json`, each built by the corresponding constructor with no name.
`JSON_ParseNumber` cannot return `none` here since allocation is modelled as
succeeding; the default is never reached. -/
def p_value : Nat → List Token → Option (JNode × List Token)
  | 0, _ => none
  | fuel + 1, ts =>
      match ts with
      | .NUM t :: ts1 =>
          some ((JSON_ParseNumber none (some t)).getD (JSON_Var none), ts1)
      | .FLOAT t :: ts1 => some (JSON_Float none t, ts1)
      | .TRUE :: ts1 => some (JSON_Bool none 1, ts1)
      | .FALSE :: ts1 => some (JSON_Bool none 0, ts1)
      | .CHARSTR t :: ts1 => some (JSON_Str none (get_charstr (some t)), ts1)
      | .LBRACE :: _ => p_json fuel ts
      | .LBRACKET :: _ => p_json fuel ts
      | _ => none
end

/-- Fuel for the recursive-descent embedding of the LALR parse: the call
depth between two token consumptions is at most four
(`value_list → value → json → json_list`), so `4·|ts| + 4` covers any parse
of `ts`. -/
def parse_fuel (ts : List Token) : Nat := 4 * ts.length + 4

/-- `yyparse` together with the process-wide `root` slot: on success
(`rc = 0`, the whole input reduced to `json`) the slot holds the parsed
tree; on failure (`rc = 1`) the slot is modelled as keeping its previous
value, which is what happens whenever the syntax error occurs before any
reduction of the `json` nonterminal (as in every input the theorems below
instantiate; the partially-reduced slot states other failures can leave
behind are not modelled). -/
def yyparse_model (ts : List Token) (oldRoot : Option JNode) :
    Int × Option JNode :=
  match p_json (parse_fuel ts) ts with
  | some (t, []) => (0, some t)
  | _ => (1, oldRoot)

/-- `JSON_ProcessBuffer` from `json.c`: scan the buffer, run the parser, and
return the `root` slot only when `yyparse` returned 0; `none` models the
`NULL` return. -/
def JSON_ProcessBuffer (buf : Option (List Char)) (oldRoot : Option JNode) :
    Option JNode :=
  match buf with
  | none => none
  | some cs =>
      let r := yyparse_model (tokenize cs) oldRoot
      if r.1 = 0 then r.2 else none

/-- `JSON_Process` from `json.c`: run the parser on the file's contents
(`none` when the path cannot be opened) and return the `root` slot without
consulting `yyparse`'s return code. -/
def JSON_Process (contents : Option (List Char)) (oldRoot : Option JNode) :
    Option JNode :=
  match contents with
  | none => none
  | some cs => (yyparse_model (tokenize cs) oldRoot).2

/-! ## Tree-algebra lemmas and claims -/

/-- Repeated `JSON_ArrayAdd` calls, threading the updated array through;
models the caller appending a sequence of nodes to one array. -/
def addAll (a : JNode) (xs : List JNode) : JNode :=
  xs.foldl (fun acc x => ((JSON_ArrayAdd (some acc) (some x)).2).getD acc) a

theorem addAll_chain_tail (xs : List JNode) :
    ∀ nm n ys, addAll (.JArray nm n ys true) xs = .JArray nm n (ys ++ xs) true := by
  induction xs with
  | nil => intro nm n ys; simp [addAll]
  | cons x rest ih =>
      intro nm n ys
      by_cases hys : ys = []
      · subst hys
        simpa [addAll, JSON_ArrayAdd] using ih nm n [x]
      · have h1 : (JSON_ArrayAdd (some (.JArray nm n ys true)) (some x)).2
            = some (.JArray nm n (ys ++ [x]) true) := by
          simp [JSON_ArrayAdd, List.isEmpty_iff, hys]
        simp only [addAll, List.foldl_cons] at *
        rw [h1]
        simpa using ih nm n (ys ++ [x])

theorem addAll_fresh (nm : Option (List Char)) (xs : List JNode) :
    addAll (JSON_Array nm) xs = .JArray nm 0 xs (¬ xs.isEmpty) := by
  cases xs with
  | nil => simp [addAll, JSON_Array]
  | cons x rest =>
      have h1 : (JSON_ArrayAdd (some (JSON_Array nm)) (some x)).2
          = some (.JArray nm 0 [x] true) := by
        simp [JSON_ArrayAdd, JSON_Array]
      simp only [addAll, List.foldl_cons]
      rw [h1]
      simpa [List.isEmpty_iff] using addAll_chain_tail rest nm 0 [x]

theorem json_indexLoop_get (kids : List JNode) :
    ∀ j n, json_indexLoop kids (n + j) n = kids.get? j := by
  induction kids with
  | nil => intro j n; simp [json_indexLoop]
  | cons x rest ih =>
      intro j n
      cases j with
      | zero => simp [json_indexLoop]
      | succ j' =>
          have hne : ¬ (n + (j' + 1) = n) := by omega
          have := ih j' (n + 1)
          simp only [json_indexLoop, hne, if_false]
          rw [show n + (j' + 1) = n + 1 + j' by omega]
          simpa using this

/-- C1: `JSON_ParseNumber` selects the integer width by the strict
thresholds of the source, evaluated on the literal's 64-bit converted value:
a literal beginning with `-` is 16-bit signed when `-32768 < n < 32767`,
else 32-bit signed when `-2147483648 < n < 2147483647`, else 64-bit signed;
otherwise it is 16-bit unsigned when `n < 65535`, else 32-bit unsigned when
`n < 4294967295`, else 64-bit unsigned. -/
theorem parseNumber_width_selection (name : Option (List Char)) (cs : List Char) :
    (cs.headD (Char.ofNat 0) = '-' →
      ((-32768 < strtoll_model cs ∧ strtoll_model cs < 32767) →
        (JSON_ParseNumber name (some cs)).map JNode.vtype
          = some .JVARTYPE_INT16) ∧
      ((¬ (-32768 < strtoll_model cs ∧ strtoll_model cs < 32767) ∧
        -2147483648 < strtoll_model cs ∧ strtoll_model cs < 2147483647) →
        (JSON_ParseNumber name (some cs)).map JNode.vtype
          = some .JVARTYPE_INT32) ∧
      ((¬ (-32768 < strtoll_model cs ∧ strtoll_model cs < 32767) ∧
        ¬ (-2147483648 < strtoll_model cs ∧ strtoll_model cs < 2147483647)) →
        (JSON_ParseNumber name (some cs)).map JNode.vtype
          = some .JVARTYPE_INT64)) ∧
    (¬ cs.headD (Char.ofNat 0) = '-' →
      (strtoull_model cs < 65535 →
        (JSON_ParseNumber name (some cs)).map JNode.vtype
          = some .JVARTYPE_UINT16) ∧
      ((¬ strtoull_model cs < 65535 ∧ strtoull_model cs < 4294967295) →
        (JSON_ParseNumber name (some cs)).map JNode.vtype
          = some .JVARTYPE_UINT32) ∧
      ((¬ strtoull_model cs < 65535 ∧ ¬ strtoull_model cs < 4294967295) →
        (JSON_ParseNumber name (some cs)).map JNode.vtype
          = some .JVARTYPE_UINT64)) := by
  unfold JSON_ParseNumber
  constructor
  · intro hneg
    simp only [hneg, if_true]
    refine ⟨fun h16 => ?_, fun h32 => ?_, fun h64 => ?_⟩
    · simp [h16, JNode.vtype]
    · simp [h32.1, h32.2, JNode.vtype]
    · simp [h64.1, h64.2, JNode.vtype]
  · intro hpos
    simp only [hpos, if_false]
    refine ⟨fun h16 => ?_, fun h32 => ?_, fun h64 => ?_⟩
    · simp [h16, JNode.vtype]
    · simp [h32.1, h32.2, JNode.vtype]
    · simp [h64.1, h64.2, JNode.vtype]

/-- C1 witness: the four boundary examples: `"65535"` is 32-bit unsigned,
`"65534"` is 16-bit unsigned, `"-32768"` is 32-bit signed, `"-32767"` is
16-bit signed. -/
theorem parseNumber_width_selection_witness :
    (JSON_ParseNumber none (some "65535".data)).map JNode.vtype
      = some .JVARTYPE_UINT32 ∧
    (JSON_ParseNumber none (some "65534".data)).map JNode.vtype
      = some .JVARTYPE_UINT16 ∧
    (JSON_ParseNumber none (some "-32768".data)).map JNode.vtype
      = some .JVARTYPE_INT32 ∧
    (JSON_ParseNumber none (some "-32767".data)).map JNode.vtype
      = some .JVARTYPE_INT16 :=
  ⟨((parseNumber_width_selection none "65535".data).2 (by decide)).2.1
      ⟨by decide, by decide⟩,
   ((parseNumber_width_selection none "65534".data).2 (by decide)).1 (by decide),
   ((parseNumber_width_selection none "-32768".data).1 (by decide)).2.1
      ⟨by decide, by decide⟩,
   ((parseNumber_width_selection none "-32767".data).1 (by decide)).1
      ⟨by decide, by decide⟩⟩

/-- C6 counterexample: with a null literal text (and any allocation
succeeding) `JSON_ParseNumber` does not fail — it returns the freshly
constructed `JVar` rather than a null/failure outcome, and no `EINVAL`
channel exists in its interface at all. -/
theorem parseNumber_null_text_counterexample :
    JSON_ParseNumber none none = some (JSON_Var none) ∧
    JSON_ParseNumber none none ≠ none :=
  ⟨rfl, by simp [JSON_ParseNumber]⟩

/-- C6 amended: for every name, a null literal text yields the freshly
constructed `JVar` unchanged — its scalar kind is still
`JVARTYPE_INVALID` — rather than any failure outcome. -/
theorem parseNumber_null_text (name : Option (List Char)) :
    JSON_ParseNumber name none = some (JSON_Var name) ∧
    (JSON_Var name).vtype = .JVARTYPE_INVALID :=
  ⟨rfl, rfl⟩

/-- C4 counterexample: a false `Bool` node serializes as `false` followed by
a trailing space, not as the bare literal `false`. -/
theorem bool_false_print_counterexample :
    JSON_Print (JSON_Bool none 0) false = "false ".data ∧
    "false ".data ≠ "false".data :=
  ⟨rfl, by decide⟩

/-- C4 amended: a `Bool` node serializes as the literal `true` when its
stored value is positive, and as `false` followed by exactly one space
otherwise. -/
theorem bool_print_rendering (num : Int) :
    JSON_Print (JSON_Bool none num) false
      = if 0 < num then "true".data else "false ".data := by
  by_cases h : 0 < num <;>
    simp [JSON_Print, JSON_Bool, json_PrintValue, printLead, printName,
      JVarData.uiRead, h]

/-- C3: the `n` count field is never updated by the append operations: after
one successful `JSON_ArrayAdd` (resp. `JSON_ObjectAdd`) on a fresh container
the stored count is still 0 while one node is reachable from `pFirst`,
violating the count invariant. -/
theorem append_leaves_count_zero :
    (JSON_ArrayAdd (some (JSON_Array none)) (some (JSON_Bool none 1))).1 = EOK ∧
    ((JSON_ArrayAdd (some (JSON_Array none)) (some (JSON_Bool none 1))).2.map
        JNode.countOf) = some 0 ∧
    ((JSON_ArrayAdd (some (JSON_Array none)) (some (JSON_Bool none 1))).2.map
        (fun a => a.chain.length)) = some 1 ∧
    (JSON_ObjectAdd (some (JSON_Object none))
        (some (JSON_Bool (some ['x']) 1))).1 = EOK ∧
    ((JSON_ObjectAdd (some (JSON_Object none))
        (some (JSON_Bool (some ['x']) 1))).2.map JNode.countOf) = some 0 ∧
    ((JSON_ObjectAdd (some (JSON_Object none))
        (some (JSON_Bool (some ['x']) 1))).2.map
        (fun o => o.chain.length)) = some 1 :=
  ⟨rfl, rfl, rfl, rfl, rfl, rfl⟩

theorem json_iterLoop_spec {α : Type} (fn : JNode → α → Int) (arg : α)
    (kids : List JNode) :
    ∀ res, json_iterLoop fn arg kids res
      = ((kids.map (fun k => fn k arg)).filter (fun rc => rc ≠ EOK)).getLastD res := by
  induction kids with
  | nil => intro res; simp [json_iterLoop]
  | cons x rest ih =>
      intro res
      by_cases h : fn x arg = EOK
      · have hstep : json_iterLoop fn arg (x :: rest) res
            = json_iterLoop fn arg rest res := by simp [json_iterLoop, h]
        rw [hstep, ih, List.map_cons, List.filter_cons]
        simp [h]
      · have hstep : json_iterLoop fn arg (x :: rest) res
            = json_iterLoop fn arg rest (fn x arg) := by simp [json_iterLoop, h]
        rw [hstep, ih, List.map_cons, List.filter_cons]
        rw [if_pos (by simp [h]), List.getLastD_cons]

/-- C7: `JSON_Iterate` applies the callback to every direct child in chain
order and returns the last non-`EOK` code observed (so `EOK` when every call
succeeded, in particular on an empty array); a non-array first argument
yields `ENOTSUP`, and a null array or callback yields `EINVAL`. -/
theorem iterate_result_spec {α : Type} (nm : Option (List Char)) (n : Nat)
    (kids : List JNode) (lt : Bool) (f : JNode → α → Int) (arg : α) :
    JSON_Iterate (some (.JArray nm n kids lt)) (some f) arg
      = ((kids.map (fun k => f k arg)).filter (fun rc => rc ≠ EOK)).getLastD EOK ∧
    (∀ j : JNode, j.ntype ≠ .JSON_ARRAY →
      JSON_Iterate (some j) (some f) arg = ENOTSUP) ∧
    JSON_Iterate (none : Option JNode) (some f) arg = EINVAL ∧
    JSON_Iterate (some (.JArray nm n kids lt))
      (none : Option (JNode → α → Int)) arg = EINVAL := by
  refine ⟨by simp [JSON_Iterate, json_iterLoop_spec], ?_, rfl, rfl⟩
  intro j hj
  cases j with
  | JArray a b c d => exact absurd rfl hj
  | JObject a b c d => rfl
  | JVar t a v => rfl

/-- C7 witness: a three-element array where the first and third calls fail
with codes 7 then 9: the result is 9, the last non-success code; a
non-array node gives `ENOTSUP` and null arguments give `EINVAL`. -/
theorem iterate_result_spec_witness :
    JSON_Iterate (some (.JArray none 0
        [JSON_Bool none 1, JSON_Num none 5, JSON_Str none (some ['s'])] true))
      (some (fun k (_ : Unit) =>
        if k.ntype = .JSON_BOOL then 7 else
          if k.vtype = .JVARTYPE_STR then 9 else EOK)) ()
      = ((([JSON_Bool none 1, JSON_Num none 5, JSON_Str none (some ['s'])].map
          (fun k => if k.ntype = .JSON_BOOL then (7 : Int) else
            if k.vtype = .JVARTYPE_STR then 9 else EOK)).filter
          (fun rc => rc ≠ EOK)).getLastD EOK) ∧
    JNode.ntype (JSON_Object none) ≠ .JSON_ARRAY ∧
    JSON_Iterate (some (JSON_Object none))
      (some (fun (_ : JNode) (_ : Unit) => EOK)) () = ENOTSUP :=
  ⟨(iterate_result_spec none 0
      [JSON_Bool none 1, JSON_Num none 5, JSON_Str none (some ['s'])] true
      (fun k (_ : Unit) =>
        if k.ntype = .JSON_BOOL then 7 else
          if k.vtype = .JVARTYPE_STR then 9 else EOK) ()).1,
   by decide,
   (iterate_result_spec none 0 [] true (fun (_ : JNode) (_ : Unit) => EOK) ()).2.1
     (JSON_Object none) (by decide)⟩

/-- C9: after appending `xs` to a fresh array, `JSON_Index` at `i` returns
the `i`-th appended node for every `i < xs.length` and returns null at index
`xs.length`; `JSON_Index` also returns null on a null argument or on a node
not tagged `JSON_ARRAY`. -/
theorem index_after_append (nm : Option (List Char)) (xs : List JNode) :
    (∀ i, i < xs.length →
      JSON_Index (some (addAll (JSON_Array nm) xs)) i = xs.get? i) ∧
    JSON_Index (some (addAll (JSON_Array nm) xs)) xs.length = none ∧
    (∀ i, JSON_Index (none : Option JNode) i = none) ∧
    (∀ (j : JNode) i, j.ntype ≠ .JSON_ARRAY → JSON_Index (some j) i = none) := by
  have hchain : JSON_Index (some (addAll (JSON_Array nm) xs))
      = fun i => json_indexLoop xs i 0 := by
    funext i
    rw [addAll_fresh]
    rfl
  refine ⟨?_, ?_, fun i => rfl, ?_⟩
  · intro i hi
    rw [hchain]
    simpa using json_indexLoop_get xs i 0
  · rw [hchain]
    have := json_indexLoop_get xs xs.length 0
    simp only [Nat.zero_add] at this
    simp [this, List.get?_eq_none]
  · intro j i hj
    cases j with
    | JArray a b c d => exact absurd rfl hj
    | JObject a b c d => rfl
    | JVar t a v => rfl

/-- C9 witness: appending two concrete nodes to a fresh array and looking
up indices 0, 1 and 2. -/
theorem index_after_append_witness :
    (0 < 2 ∧
      JSON_Index (some (addAll (JSON_Array none)
          [JSON_Num none 1, JSON_Bool none 0])) 0
        = [JSON_Num none 1, JSON_Bool none 0].get? 0) ∧
    (1 < 2 ∧
      JSON_Index (some (addAll (JSON_Array none)
          [JSON_Num none 1, JSON_Bool none 0])) 1
        = [JSON_Num none 1, JSON_Bool none 0].get? 1) ∧
    JSON_Index (some (addAll (JSON_Array none)
        [JSON_Num none 1, JSON_Bool none 0])) 2 = none ∧
    JNode.ntype (JSON_Object none) ≠ .JSON_ARRAY ∧
    JSON_Index (some (JSON_Object none)) 0 = none :=
  ⟨⟨by decide, (index_after_append none [JSON_Num none 1, JSON_Bool none 0]).1 0
      (by decide)⟩,
   ⟨by decide, (index_after_append none [JSON_Num none 1, JSON_Bool none 0]).1 1
      (by decide)⟩,
   (index_after_append none [JSON_Num none 1, JSON_Bool none 0]).2.1,
   by decide,
   (index_after_append none []).2.2.2 (JSON_Object none) 0 (by decide)⟩

/-! ## String unescaping (claim C8) -/

/-- The escape table as the spec states it: backslash, `0`, `r`, `n`, `t`,
apostrophe and quote map to their control/literal characters; any other
character following a backslash passes through unchanged.  Spec-side
definition, to be compared with the source's `escape`. -/
def specEscapeMap (c : Char) : Char :=
  if c = '\\' then '\\'
  else if c = '0' then Char.ofNat 0
  else if c = 'r' then '\r'
  else if c = 'n' then '\n'
  else if c = 't' then '\t'
  else if c = Char.ofNat 39 then Char.ofNat 39
  else if c = '"' then '"'
  else c

mutual
/-- The decode scan as the spec states it: left to right, a backslash
consumes the following character and emits its mapping, every other
character is copied verbatim.  Spec-side definition. -/
def specUnescape : List Char → List Char
  | [] => []
  | c :: rest =>
      if c = '\\' then specConsume rest else c :: specUnescape rest

/-- What a backslash consumes in the spec-side scan; with nothing after it
(a shape no quoted token body has) there is nothing to consume and the
backslash itself passes through. -/
def specConsume : List Char → List Char
  | [] => ['\\']
  | d :: rest2 => specEscapeMap d :: specUnescape rest2
end

mutual
/-- The body shape of a `charstr` token (between the quotes): no bare
quote, and every backslash is followed by a character it consumes. -/
def charstrBody : List Char → Bool
  | [] => true
  | c :: rest =>
      if c = '\\' then charstrAfterBS rest
      else if c = '"' then false
      else charstrBody rest

/-- After a backslash a `charstr` body must continue with a consumed
character. -/
def charstrAfterBS : List Char → Bool
  | [] => false
  | _ :: rest2 => charstrBody rest2
end

theorem escape_eq_specMap (c : Char) : escape c = specEscapeMap c := rfl

theorem json_unescape_eq_spec :
    ∀ mid, charstrBody mid = true → json_unescape mid = specUnescape mid
  | [], _ => rfl
  | c :: rest, h => by
      by_cases hc : c = '\\'
      · subst hc
        cases rest with
        | nil => exact absurd h (by decide)
        | cons d rest2 =>
            have hb : charstrBody rest2 = true := by
              simpa [charstrBody, charstrAfterBS] using h
            have ih := json_unescape_eq_spec rest2 hb
            simp only [json_unescape, unescapeSM, if_pos rfl, specUnescape,
              specConsume, escape_eq_specMap] at *
            simp [ih]
      · have h' : charstrBody rest = true := by
          by_cases hq : c = '"'
          · rw [hq] at h
            simp [charstrBody] at h
          · simpa only [charstrBody, hc, if_false, hq] using h
        have ih := json_unescape_eq_spec rest h'
        simp only [json_unescape, unescapeSM, hc, if_false, specUnescape] at *
        simp [ih]

/-- C8: decoding a quoted-string token strips the two quote characters and
performs exactly the left-to-right escape scan the spec describes
(`specUnescape` with the table `specEscapeMap`). -/
theorem get_charstr_decodes (mid : List Char) (h : charstrBody mid = true) :
    get_charstr (some ('"' :: mid ++ ['"'])) = some (specUnescape mid) := by
  have hdrop : ('"' :: mid ++ ['"']).drop 1 = mid ++ ['"'] := rfl
  have hlen : (mid ++ ['"']).length - 1 = mid.length := by simp
  have htake : (mid ++ ['"']).take mid.length = mid := List.take_left mid ['"']
  simp only [get_charstr, hdrop, hlen, htake, json_unescape_eq_spec mid h]

/-- C8 witness: the token text `"a\nb\tc"` (with literal backslash-n and
backslash-t) decodes to the five characters `a`, line-feed, `b`, tab, `c`. -/
theorem get_charstr_decodes_witness :
    charstrBody "a\\nb\\tc".data = true ∧
    get_charstr (some "\"a\\nb\\tc\"".data)
      = some ['a', '\n', 'b', '\t', 'c'] :=
  ⟨by decide,
   by
     have e : "\"a\\nb\\tc\"".data = '"' :: "a\\nb\\tc".data ++ ['"'] := by decide
     rw [e, get_charstr_decodes "a\\nb\\tc".data (by decide)]
     decide⟩

/-! ## End-to-end parse/serialize behavior (claims C5, C10) -/

/-- C5 counterexample: parsing `{"a":1,"b":[true,false,"x"]}` and
serializing the root with no leading comma does not reproduce
`{"a" : 1,"b" : [true,false,"x"]}` — the false Bool serializes with a
trailing space, so a space appears before the comma after `false`. -/
theorem end_to_end_counterexample :
    (JSON_ProcessBuffer (some "\x7b\"a\":1,\"b\":[true,false,\"x\"]\x7d".data)
        none).map (fun r => JSON_Print r false)
      = some "\x7b\"a\" : 1,\"b\" : [true,false ,\"x\"]\x7d".data ∧
    some "\x7b\"a\" : 1,\"b\" : [true,false ,\"x\"]\x7d".data
      ≠ some "\x7b\"a\" : 1,\"b\" : [true,false,\"x\"]\x7d".data := by
  constructor
  · decide
  · decide

/-- C5 amended: parsing `{"a":1,"b":[true,false,"x"]}` and serializing the
root with no leading comma produces exactly
`{"a" : 1,"b" : [true,false ,"x"]}` — with the colon spacing of the claim, a
single space after `false`, and nothing after the closing brace (the
serializer emits no trailing newline). -/
theorem end_to_end_exact_text :
    (JSON_ProcessBuffer (some "\x7b\"a\":1,\"b\":[true,false,\"x\"]\x7d".data)
        none).map (fun r => JSON_Print r false)
      = some "\x7b\"a\" : 1,\"b\" : [true,false ,\"x\"]\x7d".data := by
  decide

/-- C10: on an input that fails to parse (here a lone `[`), the return code
check of `JSON_ProcessBuffer` makes it return null, while `JSON_Process`
returns whatever the process-wide root slot holds — here an arbitrary stale
root from an earlier parse — with no failure indication. -/
theorem process_returns_stale_root_on_error (t0 : JNode) :
    (yyparse_model (tokenize "[".data) (some t0)).1 = 1 ∧
    JSON_ProcessBuffer (some "[".data) (some t0) = none ∧
    JSON_Process (some "[".data) (some t0) = some t0 :=
  ⟨rfl, rfl, rfl⟩

/-! ## Round trip (claim C2): lexer metatheory -/

theorem digitChar_isdigit (d : Nat) (h : d < 10) :
    c_isdigit (digitChar d) = true := by
  interval_cases d <;> decide

theorem digitChar_val (d : Nat) (h : d < 10) :
    (digitChar d).toNat - 48 = d := by
  interval_cases d <;> decide

theorem digitChar_ne_zero (d : Nat) (h1 : 1 ≤ d) (h2 : d < 10) :
    ¬ digitChar d = '0' := by
  interval_cases d <;> decide

theorem natDecimalAux_fuel :
    ∀ f g k, k < f → k < g → natDecimalAux f k = natDecimalAux g k := by
  intro f
  induction f with
  | zero => intro g k h; omega
  | succ f ih =>
      intro g k hf hg
      cases g with
      | zero => omega
      | succ g' =>
          by_cases h10 : k < 10
          · simp [natDecimalAux, h10]
          · have hk : 0 < k := by omega
            have hdiv : k / 10 < k := Nat.div_lt_self hk (by omega)
            simp only [natDecimalAux, h10, if_false]
            rw [ih g' (k / 10) (by omega) (by omega)]

theorem natDecimal_small (k : Nat) (h : k < 10) :
    natDecimal k = [digitChar k] := by
  simp [natDecimal, natDecimalAux, h]

theorem natDecimal_unfold (k : Nat) (h : 10 ≤ k) :
    natDecimal k = natDecimal (k / 10) ++ [digitChar (k % 10)] := by
  have hk : 0 < k := by omega
  have hdiv : k / 10 < k := Nat.div_lt_self hk (by omega)
  have step : natDecimal k = natDecimalAux k (k / 10) ++ [digitChar (k % 10)] := by
    show natDecimalAux (k + 1) k = _
    rw [natDecimalAux]
    simp [show ¬ k < 10 by omega]
  rw [step, natDecimalAux_fuel k (k / 10 + 1) (k / 10) (by omega) (by omega)]
  rfl

theorem natDecimal_all_digits (k : Nat) :
    ∀ c ∈ natDecimal k, c_isdigit c = true := by
  induction k using Nat.strong_induction_on with
  | _ k ih =>
      by_cases h : k < 10
      · rw [natDecimal_small k h]
        intro c hc
        simp at hc
        subst hc
        exact digitChar_isdigit k h
      · rw [natDecimal_unfold k (by omega)]
        intro c hc
        rcases List.mem_append.mp hc with h1 | h2
        · exact ih (k / 10) (Nat.div_lt_self (by omega) (by omega)) c h1
        · simp at h2
          subst h2
          exact digitChar_isdigit (k % 10) (Nat.mod_lt k (by omega))

theorem natDecimal_head_nonzero (k : Nat) (h : 1 ≤ k) :
    ∃ d ds, natDecimal k = d :: ds ∧ c_isdigit d = true ∧ ¬ d = '0' := by
  induction k using Nat.strong_induction_on with
  | _ k ih =>
      by_cases h10 : k < 10
      · exact ⟨digitChar k, [], natDecimal_small k h10,
          digitChar_isdigit k h10, digitChar_ne_zero k h h10⟩
      · have hdiv1 : 1 ≤ k / 10 := by
          have := Nat.div_le_div_right (c := 10) (show 10 ≤ k by omega)
          simpa using this
        obtain ⟨d, ds, hds, hdig, hz⟩ :=
          ih (k / 10) (Nat.div_lt_self (by omega) (by omega)) hdiv1
        exact ⟨d, ds ++ [digitChar (k % 10)], by
          rw [natDecimal_unfold k (by omega), hds]; rfl, hdig, hz⟩

theorem decDigitsAcc_append (ds : List Char) :
    ∀ z acc, (∀ c ∈ ds, c_isdigit c = true) →
      decDigitsAcc (ds ++ z) acc = decDigitsAcc z (decDigitsAcc ds acc) := by
  induction ds with
  | nil => intro z acc _; rfl
  | cons c rest ih =>
      intro z acc hall
      have hc : c_isdigit c = true := hall c (by simp)
      simp only [List.cons_append, decDigitsAcc, hc, if_true]
      exact ih z _ (fun x hx => hall x (by simp [hx]))

theorem decDigitsAcc_natDecimal (k : Nat) :
    ∀ acc, decDigitsAcc (natDecimal k) acc
      = acc * 10 ^ (natDecimal k).length + k := by
  induction k using Nat.strong_induction_on with
  | _ k ih =>
      intro acc
      by_cases h10 : k < 10
      · rw [natDecimal_small k h10]
        simp [decDigitsAcc, digitChar_isdigit k h10, digitChar_val k h10]
      · rw [natDecimal_unfold k (by omega)]
        rw [decDigitsAcc_append _ _ _ (natDecimal_all_digits (k / 10))]
        have hm : k % 10 < 10 := Nat.mod_lt k (by omega)
        simp only [decDigitsAcc, digitChar_isdigit (k % 10) hm, if_true,
          digitChar_val (k % 10) hm]
        rw [ih (k / 10) (Nat.div_lt_self (by omega) (by omega)) acc]
        rw [List.length_append, List.length_cons, List.length_nil]
        have hdm : k / 10 * 10 + k % 10 = k := by
          have := Nat.div_add_mod k 10
          omega
        have expand :
            (acc * 10 ^ (natDecimal (k / 10)).length + k / 10) * 10 + (k % 10)
            = acc * 10 ^ (natDecimal (k / 10)).length * 10
              + (k / 10 * 10 + k % 10) := by ring
        rw [expand, hdm, pow_succ]
        ring

theorem takeWhile_append_all {α : Type} {p : α → Bool} :
    ∀ (xs ys : List α), (∀ x ∈ xs, p x = true) →
      (xs ++ ys).takeWhile p = xs ++ ys.takeWhile p := by
  intro xs ys h
  induction xs with
  | nil => rfl
  | cons a rest ih =>
      have ha : p a = true := h a (by simp)
      simp only [List.cons_append, List.takeWhile_cons, ha, if_true]
      rw [ih (fun x hx => h x (by simp [hx]))]

theorem dropWhile_append_all {α : Type} {p : α → Bool} :
    ∀ (xs ys : List α), (∀ x ∈ xs, p x = true) →
      (xs ++ ys).dropWhile p = ys.dropWhile p := by
  intro xs ys h
  induction xs with
  | nil => rfl
  | cons a rest ih =>
      have ha : p a = true := h a (by simp)
      simp only [List.cons_append, List.dropWhile_cons, ha, if_true]
      exact ih (fun x hx => h x (by simp [hx]))

theorem dropWhile_length_le {α : Type} (p : α → Bool) :
    ∀ l : List α, (l.dropWhile p).length ≤ l.length := by
  intro l
  induction l with
  | nil => simp
  | cons a rest ih =>
      by_cases h : p a
      · simp only [List.dropWhile_cons, h, if_true]
        exact Nat.le_succ_of_le ih
      · simp [List.dropWhile_cons, h]

theorem consPrefix_some {c : Char} {o : Option (List Char × List Char)}
    {b r : List Char} (h : consPrefix c o = some (b, r)) :
    ∃ b0, o = some (b0, r) := by
  cases o with
  | none => simp [consPrefix] at h
  | some p =>
      obtain ⟨b0, r0⟩ := p
      simp only [consPrefix, Option.some.injEq, Prod.mk.injEq] at h
      exact ⟨b0, by rw [h.2]⟩

mutual
theorem scanCharstrBody_shrink :
    ∀ cs b r, scanCharstrBody cs = some (b, r) → r.length < cs.length
  | [], b, r => by intro h; simp [scanCharstrBody] at h
  | c :: rest, b, r => by
      intro h
      simp only [scanCharstrBody] at h
      by_cases hq : c = '"'
      · rw [if_pos hq] at h
        simp only [Option.some.injEq, Prod.mk.injEq] at h
        rw [← h.2]
        simp
      · rw [if_neg hq] at h
        by_cases hb : c = '\\'
        · rw [if_pos hb] at h
          have := scanCharstrEsc_shrink rest b r h
          simp only [List.length_cons]
          omega
        · rw [if_neg hb] at h
          obtain ⟨b0, h0⟩ := consPrefix_some h
          have := scanCharstrBody_shrink rest b0 r h0
          simp only [List.length_cons]
          omega

theorem scanCharstrEsc_shrink :
    ∀ cs b r, scanCharstrEsc cs = some (b, r) → r.length < cs.length
  | [], b, r => by intro h; simp [scanCharstrEsc] at h
  | d :: rest2, b, r => by
      intro h
      simp only [scanCharstrEsc] at h
      by_cases hn : d = '\n'
      · rw [if_pos hn] at h; simp at h
      · rw [if_neg hn] at h
        obtain ⟨b0, h0⟩ := consPrefix_some h
        obtain ⟨b1, h1⟩ := consPrefix_some h0
        have := scanCharstrBody_shrink rest2 b1 r h1
        simp only [List.length_cons]
        omega
end

theorem numBody_shrink (sign : List Char) :
    ∀ cs t r, numBody sign cs = some (t, r) → r.length < cs.length := by
  intro cs t r h
  cases cs with
  | nil => simp [numBody] at h
  | cons c rr =>
      simp only [numBody] at h
      split_ifs at h with h1 h2
      · simp only [Option.some.injEq, Prod.mk.injEq] at h
        rw [← h.2]
        simp
      · simp only [Option.some.injEq, Prod.mk.injEq] at h
        rw [← h.2]
        have := dropWhile_length_le c_isdigit rr
        simp only [List.length_cons]
        omega

theorem matchNum_shrink (cs : List Char) (t r : List Char)
    (h : matchNum cs = some (t, r)) : r.length < cs.length := by
  cases cs with
  | nil => simp [matchNum] at h
  | cons c r0 =>
      simp only [matchNum] at h
      split_ifs at h with h1
      · have := numBody_shrink ['-'] r0 t r h
        simp only [List.length_cons]
        omega
      · exact numBody_shrink [] (c :: r0) t r h

theorem floatExpDigits_bound (base : List Char) (e : Char) (es r2 cs4 : List Char)
    (t r : List Char) (h : floatExpDigits base e es r2 cs4 = some (t, r)) :
    r.length ≤ r2.length ∨ r = cs4 := by
  simp only [floatExpDigits] at h
  split_ifs at h with h1
  · simp only [Option.some.injEq, Prod.mk.injEq] at h
    exact Or.inr h.2.symm
  · simp only [Option.some.injEq, Prod.mk.injEq] at h
    refine Or.inl ?_
    rw [← h.2]
    exact dropWhile_length_le c_isdigit r2

theorem floatExpSign_bound (base : List Char) (e : Char) (r1 cs4 : List Char)
    (t r : List Char) (h : floatExpSign base e r1 cs4 = some (t, r)) :
    r.length ≤ r1.length ∨ r = cs4 := by
  cases r1 with
  | nil =>
      simp only [floatExpSign] at h
      rcases floatExpDigits_bound _ _ _ _ _ _ _ h with h1 | h2
      · exact Or.inl h1
      · exact Or.inr h2
  | cons c2 rr =>
      simp only [floatExpSign] at h
      split_ifs at h with h1 h2
      · rcases floatExpDigits_bound _ _ _ _ _ _ _ h with hb | hb
        · exact Or.inl (by simp only [List.length_cons]; omega)
        · exact Or.inr hb
      · rcases floatExpDigits_bound _ _ _ _ _ _ _ h with hb | hb
        · exact Or.inl (by simp only [List.length_cons]; omega)
        · exact Or.inr hb
      · rcases floatExpDigits_bound _ _ _ _ _ _ _ h with hb | hb
        · exact Or.inl hb
        · exact Or.inr hb

theorem floatExp_bound (base : List Char) (z : List Char) (t r : List Char)
    (h : floatExp base z = some (t, r)) : r.length ≤ z.length := by
  cases z with
  | nil =>
      simp only [floatExp, Option.some.injEq, Prod.mk.injEq] at h
      rw [← h.2]
  | cons e r1 =>
      simp only [floatExp] at h
      split_ifs at h with h1
      · rcases floatExpSign_bound _ _ _ _ _ _ h with hb | hb
        · simp only [List.length_cons]; omega
        · rw [hb]
      · simp only [Option.some.injEq, Prod.mk.injEq] at h
        rw [← h.2]

theorem floatAfterInt_shrink (pre : List Char) :
    ∀ cs t r, floatAfterInt pre cs = some (t, r) → r.length < cs.length := by
  intro cs t r h
  cases cs with
  | nil => simp [floatAfterInt] at h
  | cons c cs3 =>
      simp only [floatAfterInt] at h
      split_ifs at h with h1 h2
      · have := floatExp_bound _ _ _ _ h
        have := dropWhile_length_le c_isdigit cs3
        simp only [List.length_cons]
        omega

theorem floatBody_shrink (sign cs1 : List Char) (t r : List Char)
    (h : floatBody sign cs1 = some (t, r)) : r.length < cs1.length := by
  have h1 := floatAfterInt_shrink _ _ _ _ h
  have h2 := dropWhile_length_le c_isdigit cs1
  omega

theorem matchFloat_shrink (cs : List Char) (t r : List Char)
    (h : matchFloat cs = some (t, r)) : r.length < cs.length := by
  cases cs with
  | nil => simp [matchFloat] at h
  | cons c r0 =>
      simp only [matchFloat] at h
      split_ifs at h with h1 h2
      · have := floatBody_shrink _ _ _ _ h
        simp only [List.length_cons]
        omega
      · have := floatBody_shrink _ _ _ _ h
        simp only [List.length_cons]
        omega
      · exact floatBody_shrink _ _ _ _ h

theorem skipComment_bound :
    ∀ cs o r, skipComment cs = some (o, r) → r.length ≤ cs.length := by
  intro cs o r h
  cases cs with
  | nil =>
      simp only [skipComment, Option.some.injEq, Prod.mk.injEq] at h
      rw [← h.2]
  | cons d tail =>
      simp only [skipComment] at h
      split_ifs at h with h1
      · simp only [Option.some.injEq, Prod.mk.injEq] at h
        rw [← h.2]
        have := dropWhile_length_le (fun e => decide (¬ e = '\n')) tail
        simp only [List.length_cons]
        omega
      · simp only [Option.some.injEq, Prod.mk.injEq] at h
        rw [← h.2]

theorem nextToken_shrink :
    ∀ cs o r, nextToken cs = some (o, r) → r.length < cs.length := by
  intro cs o r h
  cases cs with
  | nil => simp [nextToken] at h
  | cons c rest =>
      simp only [nextToken] at h
      by_cases h1 : c = ' ' ∨ c = '\t'
      · rw [if_pos h1] at h
        simp only [Option.some.injEq, Prod.mk.injEq] at h
        rw [← h.2]; simp
      rw [if_neg h1] at h
      by_cases h2 : c = '\n'
      · rw [if_pos h2] at h
        simp only [Option.some.injEq, Prod.mk.injEq] at h
        rw [← h.2]; simp
      rw [if_neg h2] at h
      by_cases h3 : c = '/'
      · rw [if_pos h3] at h
        have := skipComment_bound rest o r h
        simp only [List.length_cons]
        omega
      rw [if_neg h3] at h
      by_cases h4 : c = '{'
      · rw [if_pos h4] at h
        simp only [Option.some.injEq, Prod.mk.injEq] at h
        rw [← h.2]; simp
      rw [if_neg h4] at h
      by_cases h5 : c = '}'
      · rw [if_pos h5] at h
        simp only [Option.some.injEq, Prod.mk.injEq] at h
        rw [← h.2]; simp
      rw [if_neg h5] at h
      by_cases h6 : c = '['
      · rw [if_pos h6] at h
        simp only [Option.some.injEq, Prod.mk.injEq] at h
        rw [← h.2]; simp
      rw [if_neg h6] at h
      by_cases h7 : c = ']'
      · rw [if_pos h7] at h
        simp only [Option.some.injEq, Prod.mk.injEq] at h
        rw [← h.2]; simp
      rw [if_neg h7] at h
      by_cases h8 : c = ','
      · rw [if_pos h8] at h
        simp only [Option.some.injEq, Prod.mk.injEq] at h
        rw [← h.2]; simp
      rw [if_neg h8] at h
      by_cases h9 : c = ';'
      · rw [if_pos h9] at h
        simp only [Option.some.injEq, Prod.mk.injEq] at h
        rw [← h.2]; simp
      rw [if_neg h9] at h
      by_cases h10 : c = ':'
      · rw [if_pos h10] at h
        simp only [Option.some.injEq, Prod.mk.injEq] at h
        rw [← h.2]; simp
      rw [if_neg h10] at h
      by_cases h11 : c = '"'
      · rw [if_pos h11] at h
        cases hscan : scanCharstrBody rest with
        | none =>
            rw [hscan] at h
            simp only [Option.some.injEq, Prod.mk.injEq] at h
            rw [← h.2]; simp
        | some p =>
            obtain ⟨b0, r0⟩ := p
            rw [hscan] at h
            simp only [Option.some.injEq, Prod.mk.injEq] at h
            rw [← h.2]
            have := scanCharstrBody_shrink rest b0 r0 hscan
            simp only [List.length_cons]
            omega
      rw [if_neg h11] at h
      by_cases h12 : isIdStart c = true
      · rw [if_pos h12] at h
        have hdw := dropWhile_length_le isIdChar rest
        by_cases ht : c :: rest.takeWhile isIdChar = "true".data
        · rw [if_pos ht] at h
          simp only [Option.some.injEq, Prod.mk.injEq] at h
          rw [← h.2]
          simp only [List.length_cons]
          omega
        rw [if_neg ht] at h
        by_cases hf : c :: rest.takeWhile isIdChar = "false".data
        · rw [if_pos hf] at h
          simp only [Option.some.injEq, Prod.mk.injEq] at h
          rw [← h.2]
          simp only [List.length_cons]
          omega
        rw [if_neg hf] at h
        simp only [Option.some.injEq, Prod.mk.injEq] at h
        rw [← h.2]
        simp only [List.length_cons]
        omega
      rw [if_neg h12] at h
      by_cases h13 : c = '.'
      · rw [if_pos h13] at h
        cases hfm : matchFloat (c :: rest) with
        | none =>
            rw [hfm] at h
            simp only [Option.some.injEq, Prod.mk.injEq] at h
            rw [← h.2]; simp
        | some p =>
            obtain ⟨t0, r0⟩ := p
            rw [hfm] at h
            simp only [Option.some.injEq, Prod.mk.injEq] at h
            rw [← h.2]
            exact matchFloat_shrink (c :: rest) t0 r0 hfm
      rw [if_neg h13] at h
      by_cases h14 : c_isdigit c = true ∨ c = '-' ∨ c = '+'
      · rw [if_pos h14] at h
        cases hn : matchNum (c :: rest) with
        | none =>
            cases hfm : matchFloat (c :: rest) with
            | none =>
                rw [hn, hfm] at h
                simp only [Option.some.injEq, Prod.mk.injEq] at h
                rw [← h.2]; simp
            | some p =>
                obtain ⟨t0, r0⟩ := p
                rw [hn, hfm] at h
                simp only [Option.some.injEq, Prod.mk.injEq] at h
                rw [← h.2]
                exact matchFloat_shrink (c :: rest) t0 r0 hfm
        | some p =>
            obtain ⟨nt, nr⟩ := p
            cases hfm : matchFloat (c :: rest) with
            | none =>
                rw [hn, hfm] at h
                simp only [Option.some.injEq, Prod.mk.injEq] at h
                rw [← h.2]
                exact matchNum_shrink (c :: rest) nt nr hn
            | some p2 =>
                obtain ⟨ft, fr⟩ := p2
                rw [hn, hfm] at h
                have h' : (if nt.length < ft.length
                    then (some (some (Token.FLOAT ft), fr) :
                      Option (Option Token × List Char))
                    else some (some (Token.NUM nt), nr)) = some (o, r) := h
                have hns := matchNum_shrink (c :: rest) nt nr hn
                have hfs := matchFloat_shrink (c :: rest) ft fr hfm
                by_cases hl : nt.length < ft.length
                · rw [if_pos hl] at h'
                  simp only [Option.some.injEq, Prod.mk.injEq] at h'
                  rw [← h'.2]
                  exact hfs
                · rw [if_neg hl] at h'
                  simp only [Option.some.injEq, Prod.mk.injEq] at h'
                  rw [← h'.2]
                  exact hns
      rw [if_neg h14] at h
      simp only [Option.some.injEq, Prod.mk.injEq] at h
      rw [← h.2]; simp

theorem tokenizeAux_nil : ∀ f, tokenizeAux f [] = [] := by
  intro f
  cases f with
  | zero => rfl
  | succ f' => rfl

theorem tokenizeAux_fuel :
    ∀ f g cs, cs.length ≤ f → cs.length ≤ g →
      tokenizeAux f cs = tokenizeAux g cs := by
  intro f
  induction f with
  | zero =>
      intro g cs hf hg
      have : cs = [] := List.length_eq_zero.mp (by omega)
      subst this
      rw [tokenizeAux_nil, tokenizeAux_nil]
  | succ f ih =>
      intro g cs hf hg
      cases cs with
      | nil => rw [tokenizeAux_nil, tokenizeAux_nil]
      | cons c rest =>
          cases g with
          | zero => simp at hg
          | succ g' =>
              simp only [tokenizeAux]
              cases hstep : nextToken (c :: rest) with
              | none => rfl
              | some p =>
                  obtain ⟨o, r⟩ := p
                  have hr := nextToken_shrink (c :: rest) o r hstep
                  have h1 : r.length ≤ f := by
                    simp only [List.length_cons] at hr hf
                    omega
                  have h2 : r.length ≤ g' := by
                    simp only [List.length_cons] at hr hg
                    omega
                  cases o with
                  | none => exact ih g' r h1 h2
                  | some t =>
                      show t :: tokenizeAux f r = t :: tokenizeAux g' r
                      rw [ih g' r h1 h2]

theorem tokenizeAux_eq_tokenize (f : Nat) (cs : List Char)
    (h : cs.length ≤ f) : tokenizeAux f cs = tokenize cs :=
  tokenizeAux_fuel f cs.length cs h (Nat.le_refl _)

/-! ## The round-trip-safe class of trees -/

/-- Text that survives the print/lex/unescape cycle untouched: no quote (it
would end the `charstr` token early), no backslash (the output is written
verbatim but re-parsing would unescape it), no NUL (unrepresentable in a C
string). -/
def wfString (s : List Char) : Bool :=
  s.all (fun c => ¬ c = '"' ∧ ¬ c = '\\' ∧ ¬ c.toNat = 0)

/-- Scalar payloads whose printed text re-parses to a node that prints the
same text: 16-bit unsigned values (at most 65535), 32-bit unsigned values
printable by `%d` (at most `INT32_MAX`), safe strings, and booleans.
Signed and 64-bit kinds have no `json_PrintValue` case, floats are excluded
because `%f` formatting is not modelled. -/
def wfVarPayload : JType → JVarObject → Bool
  | .JSON_BOOL, v =>
      match v.type, v.val with
      | .JVARTYPE_UINT16, .ui _ => true
      | _, _ => false
  | .JSON_VAR, v =>
      match v.type, v.val with
      | .JVARTYPE_UINT16, .ui k => k < 65536
      | .JVARTYPE_UINT32, .ul k => k ≤ 2147483647
      | .JVARTYPE_STR, .str s => wfString s
      | _, _ => false
  | _, _ => false

mutual
/-- A tree whose serialized text the grammar accepts and re-serializes
byte-identically: containers are non-empty (the grammar derives no `[]` or
`{}`), array elements are unnamed, object members carry safe names, scalars
are restricted by `wfVarPayload`. -/
def wfBody : JNode → Bool
  | .JArray _ _ kids _ => !kids.isEmpty && wfElems kids
  | .JObject _ _ kids _ => !kids.isEmpty && wfMembers kids
  | .JVar tag _ v => wfVarPayload tag v

/-- Array elements: unnamed well-formed bodies. -/
def wfElems : List JNode → Bool
  | [] => true
  | k :: rest => k.nname.isNone && wfBody k && wfElems rest

/-- Object members: a safe name on every member. -/
def wfMembers : List JNode → Bool
  | [] => true
  | k :: rest =>
      (match k.nname with
       | some s => wfString s
       | none => false) && wfBody k && wfMembers rest
end

/-- A round-trip-safe root: an unnamed array or object (the `json` start
symbol derives nothing else). -/
def wfRoot : JNode → Bool
  | .JArray none n kids lt => wfBody (.JArray none n kids lt)
  | .JObject none n kids lt => wfBody (.JObject none n kids lt)
  | _ => false

mutual
/-- The token sequence the flex rules produce from a node's serialized body
(name excluded). -/
def tokensBody : JNode → List Token
  | .JArray _ _ kids _ => .LBRACKET :: tokensElems kids ++ [.RBRACKET]
  | .JObject _ _ kids _ => .LBRACE :: tokensMembers kids ++ [.RBRACE]
  | .JVar tag _ v =>
      if tag = .JSON_BOOL then
        if v.val.uiRead > 0 then [.TRUE] else [.FALSE]
      else
        match v.type with
        | .JVARTYPE_UINT16 => [.NUM (natDecimal v.val.uiRead)]
        | .JVARTYPE_UINT32 => [.NUM (natDecimal v.val.ulRead)]
        | .JVARTYPE_STR => [.CHARSTR ('"' :: v.val.strRead ++ ['"'])]
        | _ => []

/-- Tokens of a printed child list (array form, unnamed children). -/
def tokensElems : List JNode → List Token
  | [] => []
  | k :: rest => tokensBody k ++ tokensElemsRest rest

/-- Tokens of the comma-separated tail of an array child list. -/
def tokensElemsRest : List JNode → List Token
  | [] => []
  | k :: rest => .COMMA :: tokensBody k ++ tokensElemsRest rest

/-- Tokens of a printed member list (object form, named children). -/
def tokensMembers : List JNode → List Token
  | [] => []
  | k :: rest =>
      .CHARSTR ('"' :: k.nname.getD [] ++ ['"']) :: .COLON :: tokensBody k
        ++ tokensMembersRest rest

/-- Tokens of the comma-separated tail of an object member list. -/
def tokensMembersRest : List JNode → List Token
  | [] => []
  | k :: rest =>
      .COMMA :: .CHARSTR ('"' :: k.nname.getD [] ++ ['"']) :: .COLON ::
        tokensBody k ++ tokensMembersRest rest
end

mutual
/-- The tree the grammar rebuilds from a well-formed node's serialized
body: containers come back unnamed with `n = 0` and `pLast` null, numbers
are reclassified by `JSON_ParseNumber` from their printed digits, booleans
and strings are rebuilt by their constructors. -/
def reparseBody : JNode → JNode
  | .JArray _ _ kids _ => .JArray none 0 (reparseElems kids) false
  | .JObject _ _ kids _ => .JObject none 0 (reparseMembers kids) false
  | .JVar tag _ v =>
      if tag = .JSON_BOOL then
        if v.val.uiRead > 0 then JSON_Bool none 1 else JSON_Bool none 0
      else
        match v.type with
        | .JVARTYPE_UINT16 =>
            (JSON_ParseNumber none (some (natDecimal v.val.uiRead))).getD
              (JSON_Var none)
        | .JVARTYPE_UINT32 =>
            (JSON_ParseNumber none (some (natDecimal v.val.ulRead))).getD
              (JSON_Var none)
        | .JVARTYPE_STR => JSON_Str none (some v.val.strRead)
        | _ => JSON_Var none

/-- Reparsed array elements. -/
def reparseElems : List JNode → List JNode
  | [] => []
  | k :: rest => reparseBody k :: reparseElems rest

/-- Reparsed object members: the decoded key is re-attached by the
`attribute` action. -/
def reparseMembers : List JNode → List JNode
  | [] => []
  | k :: rest => (reparseBody k).withName k.nname :: reparseMembers rest
end

/-- The follow set of a printed value inside a serialized tree: either the
end of the buffer or a comma or closing bracket, none of which can extend a
preceding `num`, keyword, or `id` match. -/
def GoodFollow : List Char → Prop
  | [] => True
  | c :: _ => c = ',' ∨ c = ']' ∨ c = '}'

/-! ## Stepping lemmas for the scanner on printed output -/

theorem tokenize_of_nextToken (c : Char) (cs : List Char) (tok : Token)
    (rest : List Char) (h : nextToken (c :: cs) = some (some tok, rest))
    (hr : rest.length ≤ cs.length) :
    tokenize (c :: cs) = tok :: tokenize rest := by
  show tokenizeAux (cs.length + 1) (c :: cs) = _
  simp only [tokenizeAux, h]
  rw [tokenizeAux_eq_tokenize cs.length rest hr]

theorem tokenize_skip_of_nextToken (c : Char) (cs : List Char)
    (rest : List Char) (h : nextToken (c :: cs) = some (none, rest))
    (hr : rest.length ≤ cs.length) :
    tokenize (c :: cs) = tokenize rest := by
  show tokenizeAux (cs.length + 1) (c :: cs) = _
  simp only [tokenizeAux, h]
  rw [tokenizeAux_eq_tokenize cs.length rest hr]

theorem tokenize_lbrace (cs : List Char) :
    tokenize ('{' :: cs) = .LBRACE :: tokenize cs := rfl

theorem tokenize_rbrace (cs : List Char) :
    tokenize ('}' :: cs) = .RBRACE :: tokenize cs := rfl

theorem tokenize_lbracket (cs : List Char) :
    tokenize ('[' :: cs) = .LBRACKET :: tokenize cs := rfl

theorem tokenize_rbracket (cs : List Char) :
    tokenize (']' :: cs) = .RBRACKET :: tokenize cs := rfl

theorem tokenize_comma (cs : List Char) :
    tokenize (',' :: cs) = .COMMA :: tokenize cs := rfl

theorem tokenize_colon (cs : List Char) :
    tokenize (':' :: cs) = .COLON :: tokenize cs := rfl

theorem tokenize_space (cs : List Char) :
    tokenize (' ' :: cs) = tokenize cs := rfl

theorem wfString_cons {c : Char} {s : List Char}
    (h : wfString (c :: s) = true) :
    (¬ c = '"' ∧ ¬ c = '\\' ∧ ¬ c.toNat = 0) ∧ wfString s = true := by
  simpa [wfString] using h

theorem scanCharstrBody_wf (s : List Char) (z : List Char)
    (h : wfString s = true) :
    scanCharstrBody (s ++ '"' :: z) = some (s ++ ['"'], z) := by
  induction s with
  | nil => simp [scanCharstrBody]
  | cons c srest ih =>
      obtain ⟨⟨hq, hb, -⟩, hrest⟩ := wfString_cons h
      simp only [List.cons_append, scanCharstrBody, if_neg hq, if_neg hb]
      simp [consPrefix, ih hrest]

theorem tokenize_charstr (s z : List Char) (h : wfString s = true) :
    tokenize ('"' :: s ++ '"' :: z)
      = .CHARSTR ('"' :: s ++ ['"']) :: tokenize z := by
  have hstep : nextToken ('"' :: (s ++ '"' :: z))
      = some (some (.CHARSTR ('"' :: (s ++ ['"']))), z) := by
    simp [nextToken, scanCharstrBody_wf s z h]
  have hr : z.length ≤ (s ++ '"' :: z).length := by
    simp [List.length_append]
    omega
  exact tokenize_of_nextToken _ _ _ _ hstep hr

theorem goodFollow_takeWhile_id (z : List Char) (h : GoodFollow z) :
    z.takeWhile isIdChar = [] := by
  cases z with
  | nil => rfl
  | cons c0 z' =>
      rcases h with h | h | h <;> subst h <;> rfl

theorem goodFollow_dropWhile_id (z : List Char) (h : GoodFollow z) :
    z.dropWhile isIdChar = z := by
  cases z with
  | nil => rfl
  | cons c0 z' =>
      rcases h with h | h | h <;> subst h <;> rfl

theorem goodFollow_takeWhile_digit (z : List Char) (h : GoodFollow z) :
    z.takeWhile c_isdigit = [] := by
  cases z with
  | nil => rfl
  | cons c0 z' =>
      rcases h with h | h | h <;> subst h <;> rfl

theorem goodFollow_dropWhile_digit (z : List Char) (h : GoodFollow z) :
    z.dropWhile c_isdigit = z := by
  cases z with
  | nil => rfl
  | cons c0 z' =>
      rcases h with h | h | h <;> subst h <;> rfl

theorem floatAfterInt_goodFollow (pre : List Char) (z : List Char)
    (h : GoodFollow z) : floatAfterInt pre z = none := by
  cases z with
  | nil => rfl
  | cons c0 z' =>
      rcases h with h | h | h <;> subst h <;> rfl

theorem tokenize_true (z : List Char)
    (htw : z.takeWhile isIdChar = []) (hdw : z.dropWhile isIdChar = z) :
    tokenize ('t' :: 'r' :: 'u' :: 'e' :: z) = .TRUE :: tokenize z := by
  have hstep : nextToken ('t' :: ('r' :: 'u' :: 'e' :: z))
      = some (some .TRUE, z) := by
    simp [nextToken, List.takeWhile_cons, List.dropWhile_cons, htw, hdw,
      isIdChar, isIdStart, c_isdigit]
  have hr : z.length ≤ ('r' :: 'u' :: 'e' :: z).length := by
    simp only [List.length_cons]
    omega
  exact tokenize_of_nextToken _ _ _ _ hstep hr

theorem tokenize_false (z : List Char)
    (htw : z.takeWhile isIdChar = []) (hdw : z.dropWhile isIdChar = z) :
    tokenize ('f' :: 'a' :: 'l' :: 's' :: 'e' :: z)
      = .FALSE :: tokenize z := by
  have hstep : nextToken ('f' :: ('a' :: 'l' :: 's' :: 'e' :: z))
      = some (some .FALSE, z) := by
    simp [nextToken, List.takeWhile_cons, List.dropWhile_cons, htw, hdw,
      isIdChar, isIdStart, c_isdigit]
  have hr : z.length ≤ ('a' :: 'l' :: 's' :: 'e' :: z).length := by
    simp only [List.length_cons]
    omega
  exact tokenize_of_nextToken _ _ _ _ hstep hr

theorem char_ne_of_digit {c : Char} (h0 : 48 ≤ c.toNat ∧ c.toNat ≤ 57)
    {d : Char} (hd : ¬ (48 ≤ d.toNat ∧ d.toNat ≤ 57)) : ¬ c = d := by
  intro e
  rw [e] at h0
  exact hd h0

theorem nextToken_digit (c : Char) (cs : List Char) (h : c_isdigit c = true) :
    nextToken (c :: cs) =
      match matchNum (c :: cs), matchFloat (c :: cs) with
      | some (nt, nr), some (ft, fr) =>
          if nt.length < ft.length then some (some (.FLOAT ft), fr)
          else some (some (.NUM nt), nr)
      | some (nt, nr), none => some (some (.NUM nt), nr)
      | none, some (ft, fr) => some (some (.FLOAT ft), fr)
      | none, none => some (none, cs) := by
  have h0 : 48 ≤ c.toNat ∧ c.toNat ≤ 57 := by simpa [c_isdigit] using h
  have hsp : ¬ c = ' ' := char_ne_of_digit h0 (by decide)
  have htb : ¬ c = '\t' := char_ne_of_digit h0 (by decide)
  have hnl : ¬ c = '\n' := char_ne_of_digit h0 (by decide)
  have hsl : ¬ c = '/' := char_ne_of_digit h0 (by decide)
  have hb1 : ¬ c = '{' := char_ne_of_digit h0 (by decide)
  have hb2 : ¬ c = '}' := char_ne_of_digit h0 (by decide)
  have hb3 : ¬ c = '[' := char_ne_of_digit h0 (by decide)
  have hb4 : ¬ c = ']' := char_ne_of_digit h0 (by decide)
  have hcm : ¬ c = ',' := char_ne_of_digit h0 (by decide)
  have hsm : ¬ c = ';' := char_ne_of_digit h0 (by decide)
  have hcl : ¬ c = ':' := char_ne_of_digit h0 (by decide)
  have hdq : ¬ c = '"' := char_ne_of_digit h0 (by decide)
  have hdt : ¬ c = '.' := char_ne_of_digit h0 (by decide)
  have hus : ¬ c = '_' := char_ne_of_digit h0 (by decide)
  have hid : isIdStart c = false := by
    unfold isIdStart
    simp only [decide_eq_false_iff_not]
    push_neg
    refine ⟨by omega, by omega, hus⟩
  have hws : ¬ (c = ' ' ∨ c = '\t') := by
    rintro (e | e)
    · exact hsp e
    · exact htb e
  simp only [nextToken, if_neg hws, if_neg hnl, if_neg hsl,
    if_neg hb1, if_neg hb2, if_neg hb3, if_neg hb4, if_neg hcm, if_neg hsm,
    if_neg hcl, if_neg hdq, hid, Bool.false_eq_true, if_false, if_neg hdt,
    if_pos (Or.inl h)]

theorem matchNum_digits (k : Nat) (z : List Char) (hgf : GoodFollow z) :
    matchNum (natDecimal k ++ z) = some (natDecimal k, z) := by
  by_cases h0 : k = 0
  · subst h0
    rw [show natDecimal 0 = ['0'] from rfl]
    show numBody [] ('0' :: z) = some (['0'], z)
    rfl
  · obtain ⟨d, ds, hD, hdig, hz0⟩ := natDecimal_head_nonzero k (by omega)
    have h0' : 48 ≤ d.toNat ∧ d.toNat ≤ 57 := by simpa [c_isdigit] using hdig
    have hmn : ¬ d = '-' := char_ne_of_digit h0' (by decide)
    have hall : ∀ c ∈ ds, c_isdigit c = true := by
      intro c hc
      exact natDecimal_all_digits k c (by rw [hD]; simp [hc])
    rw [hD]
    simp only [List.cons_append, matchNum, if_neg hmn, numBody, hdig, if_true,
      if_neg hz0]
    rw [takeWhile_append_all ds z hall, dropWhile_append_all ds z hall,
      goodFollow_takeWhile_digit z hgf, goodFollow_dropWhile_digit z hgf]
    simp

theorem natDecimal_ne_nil (k : Nat) : natDecimal k ≠ [] := by
  by_cases h : k < 10
  · rw [natDecimal_small k h]
    simp
  · rw [natDecimal_unfold k (by omega)]
    simp

theorem natDecimal_head_digit (k : Nat) :
    ∃ d ds, natDecimal k = d :: ds ∧ c_isdigit d = true ∧
      (∀ c ∈ ds, c_isdigit c = true) := by
  cases hD : natDecimal k with
  | nil => exact absurd hD (natDecimal_ne_nil k)
  | cons d ds =>
      refine ⟨d, ds, rfl, ?_, ?_⟩
      · exact natDecimal_all_digits k d (by rw [hD]; simp)
      · intro c hc
        exact natDecimal_all_digits k c (by rw [hD]; simp [hc])

theorem matchFloat_digits (k : Nat) (z : List Char) (hgf : GoodFollow z) :
    matchFloat (natDecimal k ++ z) = none := by
  obtain ⟨d, ds, hD, hdig, hall⟩ := natDecimal_head_digit k
  have h0' : 48 ≤ d.toNat ∧ d.toNat ≤ 57 := by simpa [c_isdigit] using hdig
  have hmn : ¬ d = '-' := char_ne_of_digit h0' (by decide)
  have hpl : ¬ d = '+' := char_ne_of_digit h0' (by decide)
  rw [hD]
  simp only [List.cons_append, matchFloat, if_neg hmn, if_neg hpl, floatBody]
  rw [List.dropWhile_cons]
  simp only [hdig, if_true]
  rw [dropWhile_append_all ds z hall, goodFollow_dropWhile_digit z hgf]
  exact floatAfterInt_goodFollow _ z hgf

theorem tokenize_num (k : Nat) (z : List Char) (hgf : GoodFollow z) :
    tokenize (natDecimal k ++ z) = .NUM (natDecimal k) :: tokenize z := by
  obtain ⟨d, ds, hD, hdig, hall⟩ := natDecimal_head_digit k
  have hmn := matchNum_digits k z hgf
  have hmf := matchFloat_digits k z hgf
  rw [hD] at hmn hmf ⊢
  rw [List.cons_append] at hmn hmf ⊢
  have hstep : nextToken (d :: (ds ++ z)) = some (some (.NUM (d :: ds)), z) := by
    rw [nextToken_digit d (ds ++ z) hdig, hmn, hmf]
  have hr : z.length ≤ (ds ++ z).length := by
    simp [List.length_append]
  exact tokenize_of_nextToken _ _ _ _ hstep hr

/-! ## Print structure helpers -/

theorem JSON_Print_name_split (j : JNode) (comma : Bool) :
    JSON_Print j comma
      = printLead comma ++ printName j.nname
        ++ JSON_Print (j.withName none) false := by
  cases j <;>
    simp [JSON_Print, JNode.withName, JNode.nname, printLead, printName]

theorem withName_self (k : JNode) (h : k.nname = none) :
    k.withName none = k := by
  cases k <;> simp_all [JNode.nname, JNode.withName]

theorem wfBody_withName (k : JNode) (nm : Option (List Char)) :
    wfBody (k.withName nm) = wfBody k := by
  cases k <;> rfl

theorem tokensBody_withName (k : JNode) (nm : Option (List Char)) :
    tokensBody (k.withName nm) = tokensBody k := by
  cases k <;> rfl

theorem printf_d_nat (k : Nat) : printf_d (k : Int) = natDecimal k := by
  have h : ¬ ((k : Int) < 0) := not_lt.mpr (Int.natCast_nonneg k)
  simp [printf_d, h]

theorem goodFollow_printRest (rest : List JNode) (z : List Char)
    (hz : GoodFollow z) : GoodFollow (JSON_PrintRest rest ++ z) := by
  cases rest with
  | nil => simpa [JSON_PrintRest] using hz
  | cons r rs =>
      have hsplit : JSON_Print r true
          = ',' :: (printName r.nname ++ JSON_Print (r.withName none) false) := by
        rw [JSON_Print_name_split r true]
        rfl
      simp only [JSON_PrintRest, hsplit, List.cons_append, List.append_assoc]
      simp [GoodFollow]

/-! ## The scanner on whole printed trees -/

mutual
theorem lexBody : ∀ t : JNode, wfBody t = true → ∀ z : List Char,
    GoodFollow z →
    tokenize (JSON_Print (t.withName none) false ++ z)
      = tokensBody t ++ tokenize z
  | .JArray nm cnt kids lt => by
      intro hwf z hz
      have hwfe : wfElems kids = true := by
        simp only [wfBody, Bool.and_eq_true] at hwf
        exact hwf.2
      simp only [JNode.withName, JSON_Print, printLead, printName, tokensBody,
        Bool.false_eq_true, if_false, List.nil_append, List.cons_append,
        List.append_assoc, List.singleton_append]
      rw [tokenize_lbracket,
        lexElemsFirst kids hwfe (']' :: z) (by simp [GoodFollow]),
        tokenize_rbracket]
  | .JObject nm cnt kids lt => by
      intro hwf z hz
      have hwfm : wfMembers kids = true := by
        simp only [wfBody, Bool.and_eq_true] at hwf
        exact hwf.2
      simp only [JNode.withName, JSON_Print, printLead, printName, tokensBody,
        Bool.false_eq_true, if_false, List.nil_append, List.cons_append,
        List.append_assoc, List.singleton_append]
      rw [tokenize_lbrace,
        lexMembersFirst kids hwfm ('}' :: z) (by simp [GoodFollow]),
        tokenize_rbrace]
  | .JVar tag nm v => by
      intro hwf z hz
      obtain ⟨vt, vlen, vd⟩ := v
      cases tag with
      | JSON_BOOL =>
          cases vt <;> cases vd <;> simp [wfBody, wfVarPayload] at hwf
          rename_i u
          by_cases hu : u > 0
          · have h1 : tokensBody (JNode.JVar .JSON_BOOL nm
                ⟨.JVARTYPE_UINT16, vlen, .ui u⟩) = [Token.TRUE] := by
              simp [tokensBody, JVarData.uiRead, hu]
            have h2 : JSON_Print ((JNode.JVar .JSON_BOOL nm
                ⟨.JVARTYPE_UINT16, vlen, .ui u⟩).withName none) false
                = ['t', 'r', 'u', 'e'] := by
              simp [JNode.withName, JSON_Print, json_PrintValue,
                JVarData.uiRead, printLead, printName, hu]
            rw [h1, h2]
            rw [show (['t', 'r', 'u', 'e'] : List Char) ++ z
              = 't' :: 'r' :: 'u' :: 'e' :: z by simp]
            rw [tokenize_true z (goodFollow_takeWhile_id z hz)
              (goodFollow_dropWhile_id z hz)]
            rfl
          · have h1 : tokensBody (JNode.JVar .JSON_BOOL nm
                ⟨.JVARTYPE_UINT16, vlen, .ui u⟩) = [Token.FALSE] := by
              simp [tokensBody, JVarData.uiRead, hu]
            have h2 : JSON_Print ((JNode.JVar .JSON_BOOL nm
                ⟨.JVARTYPE_UINT16, vlen, .ui u⟩).withName none) false
                = ['f', 'a', 'l', 's', 'e', ' '] := by
              simp [JNode.withName, JSON_Print, json_PrintValue,
                JVarData.uiRead, printLead, printName, hu]
            rw [h1, h2]
            rw [show (['f', 'a', 'l', 's', 'e', ' '] : List Char) ++ z
              = 'f' :: 'a' :: 'l' :: 's' :: 'e' :: ' ' :: z by simp]
            rw [tokenize_false (' ' :: z) rfl rfl, tokenize_space]
            rfl
      | JSON_VAR =>
          cases vt <;> cases vd <;> simp [wfBody, wfVarPayload] at hwf
          case JVARTYPE_UINT16.ui k =>
            have h1 : tokensBody (JNode.JVar .JSON_VAR nm
                ⟨.JVARTYPE_UINT16, vlen, .ui k⟩)
                = [Token.NUM (natDecimal k)] := by
              simp [tokensBody, JVarData.uiRead]
            have h2 : JSON_Print ((JNode.JVar .JSON_VAR nm
                ⟨.JVARTYPE_UINT16, vlen, .ui k⟩).withName none) false
                = natDecimal k := by
              simp [JNode.withName, JSON_Print, json_PrintValue,
                JVarData.uiRead, printLead, printName, printf_d_nat]
            rw [h1, h2, tokenize_num k z hz]
            rfl
          case JVARTYPE_UINT32.ul k =>
            have hk : int32Of k = (k : Int) := by
              simp only [int32Of]
              rw [if_pos (by omega)]
            have h1 : tokensBody (JNode.JVar .JSON_VAR nm
                ⟨.JVARTYPE_UINT32, vlen, .ul k⟩)
                = [Token.NUM (natDecimal k)] := by
              simp [tokensBody, JVarData.ulRead]
            have h2 : JSON_Print ((JNode.JVar .JSON_VAR nm
                ⟨.JVARTYPE_UINT32, vlen, .ul k⟩).withName none) false
                = natDecimal k := by
              simp [JNode.withName, JSON_Print, json_PrintValue,
                JVarData.ulRead, printLead, printName, hk, printf_d_nat]
            rw [h1, h2, tokenize_num k z hz]
            rfl
          case JVARTYPE_STR.str str0 =>
            have h1 : tokensBody (JNode.JVar .JSON_VAR nm
                ⟨.JVARTYPE_STR, vlen, .str str0⟩)
                = [Token.CHARSTR ('"' :: str0 ++ ['"'])] := by
              simp [tokensBody, JVarData.strRead]
            have h2 : JSON_Print ((JNode.JVar .JSON_VAR nm
                ⟨.JVARTYPE_STR, vlen, .str str0⟩).withName none) false
                = '"' :: str0 ++ ['"'] := by
              simp [JNode.withName, JSON_Print, json_PrintValue,
                JVarData.strRead, printLead, printName]
            rw [h1, h2]
            rw [show ('"' :: str0 ++ ['"']) ++ z = '"' :: str0 ++ '"' :: z
              by simp]
            rw [tokenize_charstr str0 z hwf]
            rfl
      | JSON_INVALID => simp [wfBody, wfVarPayload] at hwf
      | JSON_ARRAY => simp [wfBody, wfVarPayload] at hwf
      | JSON_OBJECT => simp [wfBody, wfVarPayload] at hwf

theorem lexElemsFirst : ∀ kids : List JNode, wfElems kids = true →
    ∀ z : List Char, GoodFollow z →
    tokenize (JSON_PrintFirst kids ++ z) = tokensElems kids ++ tokenize z
  | [] => by
      intro _ z hz
      simp [JSON_PrintFirst, tokensElems]
  | k :: rest => by
      intro hwf z hz
      have hx : (k.nname.isNone && wfBody k) = true ∧ wfElems rest = true := by
        simpa only [wfElems, Bool.and_eq_true] using hwf
      have hkn : k.nname = none := by
        have := hx.1
        simp only [Bool.and_eq_true, Option.isNone_iff_eq_none] at this
        exact this.1
      have hkb : wfBody k = true := by
        have := hx.1
        simp only [Bool.and_eq_true] at this
        exact this.2
      have hp : JSON_Print k false = JSON_Print (k.withName none) false := by
        rw [withName_self k hkn]
      simp only [JSON_PrintFirst, tokensElems, List.append_assoc]
      rw [hp, lexBody k hkb (JSON_PrintRest rest ++ z)
        (goodFollow_printRest rest z hz)]
      rw [lexElemsRest rest hx.2 z hz]

theorem lexElemsRest : ∀ kids : List JNode, wfElems kids = true →
    ∀ z : List Char, GoodFollow z →
    tokenize (JSON_PrintRest kids ++ z) = tokensElemsRest kids ++ tokenize z
  | [] => by
      intro _ z hz
      simp [JSON_PrintRest, tokensElemsRest]
  | k :: rest => by
      intro hwf z hz
      have hx : (k.nname.isNone && wfBody k) = true ∧ wfElems rest = true := by
        simpa only [wfElems, Bool.and_eq_true] using hwf
      have hkn : k.nname = none := by
        have := hx.1
        simp only [Bool.and_eq_true, Option.isNone_iff_eq_none] at this
        exact this.1
      have hkb : wfBody k = true := by
        have := hx.1
        simp only [Bool.and_eq_true] at this
        exact this.2
      have hsplit : JSON_Print k true
          = ',' :: JSON_Print (k.withName none) false := by
        rw [JSON_Print_name_split k true, hkn]
        rfl
      simp only [JSON_PrintRest, tokensElemsRest, hsplit, List.cons_append,
        List.append_assoc]
      rw [tokenize_comma, lexBody k hkb (JSON_PrintRest rest ++ z)
        (goodFollow_printRest rest z hz)]
      rw [lexElemsRest rest hx.2 z hz]

theorem lexMembersFirst : ∀ kids : List JNode, wfMembers kids = true →
    ∀ z : List Char, GoodFollow z →
    tokenize (JSON_PrintFirst kids ++ z) = tokensMembers kids ++ tokenize z
  | [] => by
      intro _ z hz
      simp [JSON_PrintFirst, tokensMembers]
  | k :: rest => by
      intro hwf z hz
      cases hname : k.nname with
      | none => simp [wfMembers, hname] at hwf
      | some s =>
          have hx : wfString s = true ∧ wfBody k = true ∧
              wfMembers rest = true := by
            have := hwf
            simp only [wfMembers, hname, Bool.and_eq_true] at this
            exact ⟨this.1.1, this.1.2, this.2⟩
          have hsplit : JSON_Print k false
              = '"' :: s ++ '"' :: ' ' :: ':' :: ' ' ::
                JSON_Print (k.withName none) false := by
            rw [JSON_Print_name_split k false, hname]
            simp [printLead, printName]
          simp only [JSON_PrintFirst, tokensMembers, hname, Option.getD_some,
            hsplit, List.cons_append, List.append_assoc]
          rw [show ('"' :: (s ++ '"' :: ' ' :: ':' :: ' ' ::
              (JSON_Print (k.withName none) false
                ++ (JSON_PrintRest rest ++ z))))
            = '"' :: s ++ '"' :: (' ' :: ':' :: ' ' ::
              (JSON_Print (k.withName none) false
                ++ (JSON_PrintRest rest ++ z))) by simp]
          rw [tokenize_charstr s _ hx.1, tokenize_space, tokenize_colon,
            tokenize_space]
          rw [lexBody k hx.2.1 (JSON_PrintRest rest ++ z)
            (goodFollow_printRest rest z hz)]
          rw [lexMembersRest rest hx.2.2 z hz]
          simp

theorem lexMembersRest : ∀ kids : List JNode, wfMembers kids = true →
    ∀ z : List Char, GoodFollow z →
    tokenize (JSON_PrintRest kids ++ z) = tokensMembersRest kids ++ tokenize z
  | [] => by
      intro _ z hz
      simp [JSON_PrintRest, tokensMembersRest]
  | k :: rest => by
      intro hwf z hz
      cases hname : k.nname with
      | none => simp [wfMembers, hname] at hwf
      | some s =>
          have hx : wfString s = true ∧ wfBody k = true ∧
              wfMembers rest = true := by
            have := hwf
            simp only [wfMembers, hname, Bool.and_eq_true] at this
            exact ⟨this.1.1, this.1.2, this.2⟩
          have hsplit : JSON_Print k true
              = ',' :: '"' :: s ++ '"' :: ' ' :: ':' :: ' ' ::
                JSON_Print (k.withName none) false := by
            rw [JSON_Print_name_split k true, hname]
            simp [printLead, printName]
          simp only [JSON_PrintRest, tokensMembersRest, hname,
            Option.getD_some, hsplit, List.cons_append, List.append_assoc]
          rw [tokenize_comma]
          rw [show ('"' :: (s ++ '"' :: ' ' :: ':' :: ' ' ::
              (JSON_Print (k.withName none) false
                ++ (JSON_PrintRest rest ++ z))))
            = '"' :: s ++ '"' :: (' ' :: ':' :: ' ' ::
              (JSON_Print (k.withName none) false
                ++ (JSON_PrintRest rest ++ z))) by simp]
          rw [tokenize_charstr s _ hx.1, tokenize_space, tokenize_colon,
            tokenize_space]
          rw [lexBody k hx.2.1 (JSON_PrintRest rest ++ z)
            (goodFollow_printRest rest z hz)]
          rw [lexMembersRest rest hx.2.2 z hz]
          simp
end

/-! ## The grammar on printed token sequences -/

theorem strtoull_natDecimal (k : Nat) (hk : k < 2 ^ 64) :
    strtoull_model (natDecimal k) = k := by
  obtain ⟨d, ds, hD, hdig, hall⟩ := natDecimal_head_digit k
  have h0 : 48 ≤ d.toNat ∧ d.toNat ≤ 57 := by simpa [c_isdigit] using hdig
  have hns : c_isspace d = false := by
    simp only [c_isspace, decide_eq_false_iff_not]
    push_neg
    exact ⟨char_ne_of_digit h0 (by decide), char_ne_of_digit h0 (by decide),
      char_ne_of_digit h0 (by decide), char_ne_of_digit h0 (by decide),
      char_ne_of_digit h0 (by decide), char_ne_of_digit h0 (by decide)⟩
  have hmn : ¬ d = '-' := char_ne_of_digit h0 (by decide)
  have hpl : ¬ d = '+' := char_ne_of_digit h0 (by decide)
  have hval : decDigitsAcc (natDecimal k) 0 = k := by
    have := decDigitsAcc_natDecimal k 0
    simpa using this
  rw [hD] at hval
  simp only [strtoull_model, hD, List.dropWhile_cons, hns,
    Bool.false_eq_true, if_false, strtoull_core, if_neg hmn, if_neg hpl,
    hval]
  omega

theorem c_isdigit_ne_minus {d : Char} (hdig : c_isdigit d = true) :
    ¬ d = '-' := by
  have h0 : 48 ≤ d.toNat ∧ d.toNat ≤ 57 := by simpa [c_isdigit] using hdig
  exact char_ne_of_digit h0 (by decide)

theorem natDecimal_headD (k : Nat) :
    ¬ (natDecimal k).headD (Char.ofNat 0) = '-' := by
  obtain ⟨d, ds, hD, hdig, -⟩ := natDecimal_head_digit k
  rw [hD]
  simpa using c_isdigit_ne_minus hdig

theorem parseNumber_natDecimal (k : Nat) (hk : k < 2 ^ 31) :
    JSON_ParseNumber none (some (natDecimal k))
      = some (if k < 65535 then
          (.JVar .JSON_VAR none ⟨.JVARTYPE_UINT16, 2, .ui k⟩ : JNode)
        else .JVar .JSON_VAR none ⟨.JVARTYPE_UINT32, 4, .ul k⟩) := by
  have hs := strtoull_natDecimal k (by omega)
  simp only [JSON_ParseNumber, if_neg (natDecimal_headD k), hs]
  by_cases h16 : k < 65535
  · rw [if_pos h16, if_pos h16]
    have : toUInt16c k = k := by
      simp [toUInt16c]
      omega
    rw [this]
  · rw [if_neg h16, if_neg h16, if_pos (by omega)]
    have : toUInt32c k = k := by
      simp [toUInt32c]
      omega
    rw [this]

theorem json_unescape_wf (s : List Char) (h : wfString s = true) :
    json_unescape s = s := by
  induction s with
  | nil => rfl
  | cons c rest ih =>
      obtain ⟨⟨-, hb, -⟩, hrest⟩ := wfString_cons h
      show unescapeSM 0 (c :: rest) = c :: rest
      simp only [unescapeSM, if_neg hb]
      exact congrArg (c :: ·) (ih hrest)

theorem get_charstr_wf (s : List Char) (h : wfString s = true) :
    get_charstr (some ('"' :: s ++ ['"'])) = some s := by
  have hdrop : ('"' :: s ++ ['"']).drop 1 = s ++ ['"'] := rfl
  have hlen : (s ++ ['"']).length - 1 = s.length := by simp
  have htake : (s ++ ['"']).take s.length = s := List.take_left s ['"']
  simp only [get_charstr, hdrop, hlen, htake, json_unescape_wf s h]

theorem tokensElemsRest_eq_cons (x : JNode) (xs : List JNode) :
    tokensElemsRest (x :: xs) = .COMMA :: tokensElems (x :: xs) := by
  simp [tokensElemsRest, tokensElems]

theorem tokensMembersRest_eq_cons (x : JNode) (xs : List JNode) :
    tokensMembersRest (x :: xs) = .COMMA :: tokensMembers (x :: xs) := by
  simp [tokensMembersRest, tokensMembers]

theorem tokensBody_length_pos (t : JNode) (h : wfBody t = true) :
    1 ≤ (tokensBody t).length := by
  cases t with
  | JArray nm cnt kids lt => simp [tokensBody]
  | JObject nm cnt kids lt => simp [tokensBody]
  | JVar tag nm v =>
      obtain ⟨vt, vlen, vd⟩ := v
      cases tag <;> cases vt <;> cases vd <;>
        (simp_all [wfBody, wfVarPayload, tokensBody, JVarData.uiRead]
         try (split <;> simp))

theorem p_value_list_last (f : Nat) (ts : List Token) (v : JNode)
    (rest : List Token) (hpv : p_value f ts = some (v, rest))
    (h : rest.head? ≠ some .COMMA) :
    p_value_list (f + 1) ts = some ([v], rest) := by
  simp only [p_value_list, hpv]
  cases rest with
  | nil => rfl
  | cons r0 rs =>
      cases r0 <;> first | (exact absurd rfl h) | rfl

theorem p_value_list_cons (f : Nat) (ts : List Token) (v : JNode)
    (ts1 : List Token) (hpv : p_value f ts = some (v, .COMMA :: ts1))
    (vs : List JNode) (rest : List Token)
    (hrec : p_value_list f ts1 = some (vs, rest)) :
    p_value_list (f + 1) ts = some (v :: vs, rest) := by
  simp only [p_value_list, hpv, hrec]

theorem p_attribute_list_last (f : Nat) (ts : List Token) (v : JNode)
    (rest : List Token) (hpa : p_attribute f ts = some (v, rest))
    (h : rest.head? ≠ some .COMMA) :
    p_attribute_list (f + 1) ts = some ([v], rest) := by
  simp only [p_attribute_list, hpa]
  cases rest with
  | nil => rfl
  | cons r0 rs =>
      cases r0 <;> first | (exact absurd rfl h) | rfl

theorem p_attribute_list_cons (f : Nat) (ts : List Token) (v : JNode)
    (ts1 : List Token) (hpa : p_attribute f ts = some (v, .COMMA :: ts1))
    (vs : List JNode) (rest : List Token)
    (hrec : p_attribute_list f ts1 = some (vs, rest)) :
    p_attribute_list (f + 1) ts = some (v :: vs, rest) := by
  simp only [p_attribute_list, hpa, hrec]

theorem p_attribute_step (f : Nat) (s : List Char) (hs : wfString s = true)
    (ts T : List Token) (v : JNode)
    (hpv : p_value f ts = some (v, T)) :
    p_attribute (f + 1) (.CHARSTR ('"' :: s ++ ['"']) :: .COLON :: ts)
      = some (v.withName (some s), T) := by
  simp only [p_attribute, hpv, get_charstr_wf s hs]

mutual
/-- The `value` production consumes exactly the printed token run of a
well-formed body and rebuilds `reparseBody`; `rest` is whatever follows. -/
theorem parseBody : ∀ t : JNode, wfBody t = true →
    ∀ (rest : List Token) (f : Nat),
    4 * (tokensBody t ++ rest).length + 3 ≤ f →
    p_value f (tokensBody t ++ rest) = some (reparseBody t, rest)
  | .JArray nm cnt kids lt => by
      intro hwf rest f hfuel
      have hx : (!kids.isEmpty && wfElems kids) = true := by
        simpa only [wfBody] using hwf
      rw [Bool.and_eq_true] at hx
      have hke : kids ≠ [] := by
        intro h0
        rw [h0] at hx
        simp at hx
      have hwe : wfElems kids = true := hx.2
      obtain ⟨f3, rfl⟩ : ∃ f3, f = f3 + 3 := ⟨f - 3, by omega⟩
      have hshape : tokensBody (JNode.JArray nm cnt kids lt) ++ rest
          = .LBRACKET :: (tokensElems kids ++ (.RBRACKET :: rest)) := by
        simp [tokensBody]
      have hpvl : p_value_list f3 (tokensElems kids ++ (.RBRACKET :: rest))
          = some (reparseElems kids, .RBRACKET :: rest) := by
        have hL := congrArg List.length hshape
        have hb : 4 * (tokensElems kids ++ (.RBRACKET :: rest)).length + 4
            ≤ f3 := by
          simp only [List.length_cons, List.length_append] at hL hfuel ⊢
          omega
        exact parseElems kids hwe hke (.RBRACKET :: rest) f3 hb (by simp)
      rw [hshape]
      show p_value (f3 + 2 + 1)
        (.LBRACKET :: (tokensElems kids ++ (.RBRACKET :: rest))) = _
      simp only [p_value]
      show p_json (f3 + 1 + 1)
        (.LBRACKET :: (tokensElems kids ++ (.RBRACKET :: rest))) = _
      simp only [p_json]
      simp only [p_json_list, hpvl]
      simp [reparseBody]
  | .JObject nm cnt kids lt => by
      intro hwf rest f hfuel
      have hx : (!kids.isEmpty && wfMembers kids) = true := by
        simpa only [wfBody] using hwf
      rw [Bool.and_eq_true] at hx
      have hke : kids ≠ [] := by
        intro h0
        rw [h0] at hx
        simp at hx
      have hwm : wfMembers kids = true := hx.2
      obtain ⟨f3, rfl⟩ : ∃ f3, f = f3 + 3 := ⟨f - 3, by omega⟩
      have hshape : tokensBody (JNode.JObject nm cnt kids lt) ++ rest
          = .LBRACE :: (tokensMembers kids ++ (.RBRACE :: rest)) := by
        simp [tokensBody]
      have hpal : p_attribute_list f3
          (tokensMembers kids ++ (.RBRACE :: rest))
          = some (reparseMembers kids, .RBRACE :: rest) := by
        have hL := congrArg List.length hshape
        have hb : 4 * (tokensMembers kids ++ (.RBRACE :: rest)).length + 4
            ≤ f3 := by
          simp only [List.length_cons, List.length_append] at hL hfuel ⊢
          omega
        exact parseMembers kids hwm hke (.RBRACE :: rest) f3 hb (by simp)
      rw [hshape]
      show p_value (f3 + 2 + 1)
        (.LBRACE :: (tokensMembers kids ++ (.RBRACE :: rest))) = _
      simp only [p_value]
      show p_json (f3 + 1 + 1)
        (.LBRACE :: (tokensMembers kids ++ (.RBRACE :: rest))) = _
      simp only [p_json]
      simp only [p_json_object, hpal]
      simp [reparseBody]
  | .JVar tag nm v => by
      intro hwf rest f hfuel
      obtain ⟨vt, vlen, vd⟩ := v
      obtain ⟨f1, rfl⟩ : ∃ f1, f = f1 + 1 := ⟨f - 1, by omega⟩
      cases tag with
      | JSON_BOOL =>
          cases vt <;> cases vd <;> simp [wfBody, wfVarPayload] at hwf
          rename_i u
          by_cases hu : u > 0
          · have h1 : tokensBody (JNode.JVar .JSON_BOOL nm
                ⟨.JVARTYPE_UINT16, vlen, .ui u⟩) = [Token.TRUE] := by
              simp [tokensBody, JVarData.uiRead, hu]
            rw [h1, List.singleton_append]
            simp only [p_value]
            simp [reparseBody, JVarData.uiRead, hu]
          · have h1 : tokensBody (JNode.JVar .JSON_BOOL nm
                ⟨.JVARTYPE_UINT16, vlen, .ui u⟩) = [Token.FALSE] := by
              simp [tokensBody, JVarData.uiRead, hu]
            rw [h1, List.singleton_append]
            simp only [p_value]
            simp [reparseBody, JVarData.uiRead, hu]
      | JSON_VAR =>
          cases vt <;> cases vd <;> simp [wfBody, wfVarPayload] at hwf
          case JVARTYPE_UINT16.ui k =>
            have h1 : tokensBody (JNode.JVar .JSON_VAR nm
                ⟨.JVARTYPE_UINT16, vlen, .ui k⟩)
                = [Token.NUM (natDecimal k)] := by
              simp [tokensBody, JVarData.uiRead]
            rw [h1, List.singleton_append]
            simp only [p_value]
            simp [reparseBody, JVarData.uiRead]
          case JVARTYPE_UINT32.ul k =>
            have h1 : tokensBody (JNode.JVar .JSON_VAR nm
                ⟨.JVARTYPE_UINT32, vlen, .ul k⟩)
                = [Token.NUM (natDecimal k)] := by
              simp [tokensBody, JVarData.ulRead]
            rw [h1, List.singleton_append]
            simp only [p_value]
            simp [reparseBody, JVarData.ulRead]
          case JVARTYPE_STR.str str0 =>
            have h1 : tokensBody (JNode.JVar .JSON_VAR nm
                ⟨.JVARTYPE_STR, vlen, .str str0⟩)
                = [Token.CHARSTR ('"' :: str0 ++ ['"'])] := by
              simp [tokensBody, JVarData.strRead]
            rw [h1, List.singleton_append]
            simp only [p_value]
            rw [get_charstr_wf str0 hwf]
            simp [reparseBody, JVarData.strRead]
      | JSON_INVALID => simp [wfBody, wfVarPayload] at hwf
      | JSON_ARRAY => simp [wfBody, wfVarPayload] at hwf
      | JSON_OBJECT => simp [wfBody, wfVarPayload] at hwf

/-- The `value_list` production on the printed elements of a non-empty
array: it stops exactly at `rest` when `rest` does not begin with a comma. -/
theorem parseElems : ∀ kids : List JNode, wfElems kids = true → kids ≠ [] →
    ∀ (rest : List Token) (f : Nat),
    4 * (tokensElems kids ++ rest).length + 4 ≤ f →
    rest.head? ≠ some .COMMA →
    p_value_list f (tokensElems kids ++ rest)
      = some (reparseElems kids, rest)
  | [] => by
      intro _ hne
      exact absurd rfl hne
  | k :: krest => by
      intro hwf _ rest f hfuel hnc
      have hx : (k.nname.isNone && wfBody k) = true ∧ wfElems krest = true := by
        simpa only [wfElems, Bool.and_eq_true] using hwf
      have hwk : wfBody k = true := by
        have := hx.1
        rw [Bool.and_eq_true] at this
        exact this.2
      obtain ⟨f1, rfl⟩ : ∃ f1, f = f1 + 1 := ⟨f - 1, by omega⟩
      cases krest with
      | nil =>
          have hshape : tokensElems [k] ++ rest = tokensBody k ++ rest := by
            simp [tokensElems, tokensElemsRest]
          have hpv : p_value f1 (tokensBody k ++ rest)
              = some (reparseBody k, rest) := by
            apply parseBody k hwk
            have hL := congrArg List.length hshape
            simp only [List.length_append] at hL hfuel ⊢
            omega
          rw [hshape]
          rw [p_value_list_last f1 (tokensBody k ++ rest) (reparseBody k)
            rest hpv hnc]
          simp [reparseElems]
      | cons k2 kr2 =>
          have hshape : tokensElems (k :: k2 :: kr2) ++ rest
              = tokensBody k
                ++ (.COMMA :: (tokensElems (k2 :: kr2) ++ rest)) := by
            simp [tokensElems, tokensElemsRest_eq_cons]
          have hpv : p_value f1 (tokensBody k
              ++ (.COMMA :: (tokensElems (k2 :: kr2) ++ rest)))
              = some (reparseBody k,
                  .COMMA :: (tokensElems (k2 :: kr2) ++ rest)) := by
            apply parseBody k hwk
            have hL := congrArg List.length hshape
            simp only [List.length_cons, List.length_append] at hL hfuel ⊢
            omega
          have hrec : p_value_list f1 (tokensElems (k2 :: kr2) ++ rest)
              = some (reparseElems (k2 :: kr2), rest) := by
            have hb : 4 * (tokensElems (k2 :: kr2) ++ rest).length + 4
                ≤ f1 := by
              have hL := congrArg List.length hshape
              simp only [List.length_cons, List.length_append] at hL hfuel ⊢
              omega
            exact parseElems (k2 :: kr2) hx.2 (List.cons_ne_nil k2 kr2)
              rest f1 hb hnc
          rw [hshape]
          rw [p_value_list_cons f1 _ (reparseBody k)
            (tokensElems (k2 :: kr2) ++ rest) hpv
            (reparseElems (k2 :: kr2)) rest hrec]
          simp [reparseElems]

/-- The `attribute_list` production on the printed members of a non-empty
object: each decoded key is re-attached to its value. -/
theorem parseMembers : ∀ kids : List JNode, wfMembers kids = true →
    kids ≠ [] → ∀ (rest : List Token) (f : Nat),
    4 * (tokensMembers kids ++ rest).length + 4 ≤ f →
    rest.head? ≠ some .COMMA →
    p_attribute_list f (tokensMembers kids ++ rest)
      = some (reparseMembers kids, rest)
  | [] => by
      intro _ hne
      exact absurd rfl hne
  | k :: krest => by
      intro hwf _ rest f hfuel hnc
      cases hname : k.nname with
      | none => simp [wfMembers, hname] at hwf
      | some s =>
          have hx : wfString s = true ∧ wfBody k = true ∧
              wfMembers krest = true := by
            have := hwf
            simp only [wfMembers, hname, Bool.and_eq_true] at this
            exact ⟨this.1.1, this.1.2, this.2⟩
          obtain ⟨f2, rfl⟩ : ∃ f2, f = f2 + 2 := ⟨f - 2, by omega⟩
          cases krest with
          | nil =>
              have hshape : tokensMembers [k] ++ rest
                  = .CHARSTR ('"' :: s ++ ['"']) :: .COLON ::
                    (tokensBody k ++ rest) := by
                simp [tokensMembers, tokensMembersRest, hname]
              have hpv : p_value f2 (tokensBody k ++ rest)
                  = some (reparseBody k, rest) := by
                apply parseBody k hx.2.1
                have hL := congrArg List.length hshape
                simp only [List.length_cons, List.length_append] at hL hfuel ⊢
                omega
              have hpa := p_attribute_step f2 s hx.1 (tokensBody k ++ rest)
                rest (reparseBody k) hpv
              rw [hshape]
              show p_attribute_list (f2 + 1 + 1) _ = _
              rw [p_attribute_list_last (f2 + 1)
                (.CHARSTR ('"' :: s ++ ['"']) :: .COLON ::
                  (tokensBody k ++ rest))
                ((reparseBody k).withName (some s)) rest hpa hnc]
              simp [reparseMembers, hname]
          | cons k2 kr2 =>
              have hshape : tokensMembers (k :: k2 :: kr2) ++ rest
                  = .CHARSTR ('"' :: s ++ ['"']) :: .COLON ::
                    (tokensBody k
                      ++ (.COMMA ::
                          (tokensMembers (k2 :: kr2) ++ rest))) := by
                simp [tokensMembers, tokensMembersRest_eq_cons, hname]
              have hpv : p_value f2 (tokensBody k
                  ++ (.COMMA :: (tokensMembers (k2 :: kr2) ++ rest)))
                  = some (reparseBody k,
                      .COMMA :: (tokensMembers (k2 :: kr2) ++ rest)) := by
                apply parseBody k hx.2.1
                have hL := congrArg List.length hshape
                simp only [List.length_cons, List.length_append] at hL hfuel ⊢
                omega
              have hpa := p_attribute_step f2 s hx.1 _ _ (reparseBody k) hpv
              have hrec : p_attribute_list (f2 + 1)
                  (tokensMembers (k2 :: kr2) ++ rest)
                  = some (reparseMembers (k2 :: kr2), rest) := by
                have hb : 4 * (tokensMembers (k2 :: kr2) ++ rest).length + 4
                    ≤ f2 + 1 := by
                  have hL := congrArg List.length hshape
                  simp only [List.length_cons, List.length_append] at hL hfuel ⊢
                  omega
                exact parseMembers (k2 :: kr2) hx.2.2
                  (List.cons_ne_nil k2 kr2) rest (f2 + 1) hb hnc
              rw [hshape]
              show p_attribute_list (f2 + 1 + 1) _ = _
              rw [p_attribute_list_cons (f2 + 1) _ _ _ hpa _ rest hrec]
              simp [reparseMembers, hname]
end

theorem withName_nname (t : JNode) (nm : Option (List Char)) :
    (t.withName nm).nname = nm := by
  cases t <;> rfl

theorem withName_withName (t : JNode) (a b : Option (List Char)) :
    (t.withName a).withName b = t.withName b := by
  cases t <;> rfl

theorem parseNumber_getD_nname (nm : Option (List Char)) (cs : List Char)
    (d : JNode) :
    ((JSON_ParseNumber nm (some cs)).getD d).nname = nm := by
  simp only [JSON_ParseNumber]
  split
  · split
    · rfl
    · split <;> rfl
  · split
    · rfl
    · split <;> rfl

theorem reparseBody_nname (t : JNode) : (reparseBody t).nname = none := by
  cases t with
  | JArray nm cnt kids lt => rfl
  | JObject nm cnt kids lt => rfl
  | JVar tag nm v =>
      simp only [reparseBody]
      by_cases hb : tag = JType.JSON_BOOL
      · rw [if_pos hb]
        by_cases hu : v.val.uiRead > 0
        · rw [if_pos hu]; rfl
        · rw [if_neg hu]; rfl
      · rw [if_neg hb]
        cases v.type <;>
          first
            | exact parseNumber_getD_nname none _ _
            | rfl

/-- The whole printed token run of a well-formed root reduces to `json`
with nothing left over. -/
theorem parse_root (t : JNode) (h : wfRoot t = true) :
    p_json (parse_fuel (tokensBody t)) (tokensBody t)
      = some (reparseBody t, []) := by
  cases t with
  | JVar tag nm v => simp [wfRoot] at h
  | JArray nm cnt kids lt =>
      cases nm with
      | some s => simp [wfRoot] at h
      | none =>
          have hwf : wfBody (JNode.JArray none cnt kids lt) = true := by
            simpa [wfRoot] using h
          have hx : (!kids.isEmpty && wfElems kids) = true := by
            simpa only [wfBody] using hwf
          rw [Bool.and_eq_true] at hx
          have hke : kids ≠ [] := by
            intro h0
            rw [h0] at hx
            simp at hx
          have hshape : tokensBody (JNode.JArray none cnt kids lt)
              = .LBRACKET :: (tokensElems kids ++ [.RBRACKET]) := by
            simp [tokensBody]
          rw [hshape]
          have hF : parse_fuel
              (.LBRACKET :: (tokensElems kids ++ [.RBRACKET]))
              = 4 * (tokensElems kids).length + 12 := by
            simp [parse_fuel]
            omega
          rw [hF]
          have hpvl : p_value_list (4 * (tokensElems kids).length + 10)
              (tokensElems kids ++ [.RBRACKET])
              = some (reparseElems kids, [.RBRACKET]) := by
            refine parseElems kids hx.2 hke [.RBRACKET] _ ?_ (by simp)
            simp only [List.length_append, List.length_cons, List.length_nil]
            omega
          show p_json (4 * (tokensElems kids).length + 11 + 1)
            (.LBRACKET :: (tokensElems kids ++ [.RBRACKET])) = _
          simp only [p_json]
          show p_json_list (4 * (tokensElems kids).length + 10 + 1)
            (.LBRACKET :: (tokensElems kids ++ [.RBRACKET])) = _
          simp only [p_json_list, hpvl]
          simp [reparseBody]
  | JObject nm cnt kids lt =>
      cases nm with
      | some s => simp [wfRoot] at h
      | none =>
          have hwf : wfBody (JNode.JObject none cnt kids lt) = true := by
            simpa [wfRoot] using h
          have hx : (!kids.isEmpty && wfMembers kids) = true := by
            simpa only [wfBody] using hwf
          rw [Bool.and_eq_true] at hx
          have hke : kids ≠ [] := by
            intro h0
            rw [h0] at hx
            simp at hx
          have hshape : tokensBody (JNode.JObject none cnt kids lt)
              = .LBRACE :: (tokensMembers kids ++ [.RBRACE]) := by
            simp [tokensBody]
          rw [hshape]
          have hF : parse_fuel
              (.LBRACE :: (tokensMembers kids ++ [.RBRACE]))
              = 4 * (tokensMembers kids).length + 12 := by
            simp [parse_fuel]
            omega
          rw [hF]
          have hpal : p_attribute_list (4 * (tokensMembers kids).length + 10)
              (tokensMembers kids ++ [.RBRACE])
              = some (reparseMembers kids, [.RBRACE]) := by
            refine parseMembers kids hx.2 hke [.RBRACE] _ ?_ (by simp)
            simp only [List.length_append, List.length_cons, List.length_nil]
            omega
          show p_json (4 * (tokensMembers kids).length + 11 + 1)
            (.LBRACE :: (tokensMembers kids ++ [.RBRACE])) = _
          simp only [p_json]
          show p_json_object (4 * (tokensMembers kids).length + 10 + 1)
            (.LBRACE :: (tokensMembers kids ++ [.RBRACE])) = _
          simp only [p_json_object, hpal]
          simp [reparseBody]

mutual
/-- Reparsing a well-formed body and printing it again reproduces the
original printed text: the body survives the round trip byte-identically. -/
theorem printBody : ∀ t : JNode, wfBody t = true →
    JSON_Print (reparseBody t) false = JSON_Print (t.withName none) false
  | .JArray nm cnt kids lt => by
      intro hwf
      have hwe : wfElems kids = true := by
        have hx : (!kids.isEmpty && wfElems kids) = true := by
          simpa only [wfBody] using hwf
        rw [Bool.and_eq_true] at hx
        exact hx.2
      simp only [reparseBody, JNode.withName, JSON_Print]
      rw [printElemsFirst kids hwe]
  | .JObject nm cnt kids lt => by
      intro hwf
      have hwm : wfMembers kids = true := by
        have hx : (!kids.isEmpty && wfMembers kids) = true := by
          simpa only [wfBody] using hwf
        rw [Bool.and_eq_true] at hx
        exact hx.2
      simp only [reparseBody, JNode.withName, JSON_Print]
      rw [printMembersFirst kids hwm]
  | .JVar tag nm v => by
      intro hwf
      obtain ⟨vt, vlen, vd⟩ := v
      cases tag with
      | JSON_BOOL =>
          cases vt <;> cases vd <;> simp [wfBody, wfVarPayload] at hwf
          rename_i u
          by_cases hu : u > 0
          · simp [reparseBody, JNode.withName, JSON_Print, JSON_Bool,
              json_PrintValue, JVarData.uiRead, printLead, printName, hu]
          · simp [reparseBody, JNode.withName, JSON_Print, JSON_Bool,
              json_PrintValue, JVarData.uiRead, printLead, printName, hu]
      | JSON_VAR =>
          cases vt <;> cases vd <;> simp [wfBody, wfVarPayload] at hwf
          case JVARTYPE_UINT16.ui k =>
            have hp := parseNumber_natDecimal k (by omega)
            by_cases h16 : k < 65535
            · rw [if_pos h16] at hp
              simp [reparseBody, JNode.withName, JSON_Print, hp,
                json_PrintValue, JVarData.uiRead, printLead, printName]
            · rw [if_neg h16] at hp
              have hk : int32Of k = (k : Int) := by
                simp only [int32Of]
                rw [if_pos (by omega)]
              simp [reparseBody, JNode.withName, JSON_Print, hp,
                json_PrintValue, JVarData.uiRead, JVarData.ulRead, hk,
                printLead, printName]
          case JVARTYPE_UINT32.ul k =>
            have hp := parseNumber_natDecimal k (by omega)
            have hk : int32Of k = (k : Int) := by
              simp only [int32Of]
              rw [if_pos (by omega)]
            by_cases h16 : k < 65535
            · rw [if_pos h16] at hp
              simp [reparseBody, JNode.withName, JSON_Print, hp,
                json_PrintValue, JVarData.uiRead, JVarData.ulRead, hk,
                printLead, printName]
            · rw [if_neg h16] at hp
              simp [reparseBody, JNode.withName, JSON_Print, hp,
                json_PrintValue, JVarData.ulRead, hk, printLead, printName]
          case JVARTYPE_STR.str str0 =>
            simp [reparseBody, JNode.withName, JSON_Print, JSON_Str,
              json_PrintValue, JVarData.strRead, printLead, printName]
      | JSON_INVALID => simp [wfBody, wfVarPayload] at hwf
      | JSON_ARRAY => simp [wfBody, wfVarPayload] at hwf
      | JSON_OBJECT => simp [wfBody, wfVarPayload] at hwf

/-- Reparsed array elements print as the original elements (first child,
no leading comma). -/
theorem printElemsFirst : ∀ kids : List JNode, wfElems kids = true →
    JSON_PrintFirst (reparseElems kids) = JSON_PrintFirst kids
  | [] => by
      intro _
      rfl
  | k :: rest => by
      intro hwf
      have hx : (k.nname.isNone && wfBody k) = true ∧ wfElems rest = true := by
        simpa only [wfElems, Bool.and_eq_true] using hwf
      have hkn : k.nname = none := by
        have := hx.1
        rw [Bool.and_eq_true] at this
        exact Option.isNone_iff_eq_none.mp this.1
      have hwk : wfBody k = true := by
        have := hx.1
        rw [Bool.and_eq_true] at this
        exact this.2
      show JSON_Print (reparseBody k) false
          ++ JSON_PrintRest (reparseElems rest)
        = JSON_Print k false ++ JSON_PrintRest rest
      rw [printBody k hwk, printElemsRest rest hx.2, withName_self k hkn]

/-- Reparsed array elements print as the original elements (later children,
leading comma). -/
theorem printElemsRest : ∀ kids : List JNode, wfElems kids = true →
    JSON_PrintRest (reparseElems kids) = JSON_PrintRest kids
  | [] => by
      intro _
      rfl
  | k :: rest => by
      intro hwf
      have hx : (k.nname.isNone && wfBody k) = true ∧ wfElems rest = true := by
        simpa only [wfElems, Bool.and_eq_true] using hwf
      have hkn : k.nname = none := by
        have := hx.1
        rw [Bool.and_eq_true] at this
        exact Option.isNone_iff_eq_none.mp this.1
      have hwk : wfBody k = true := by
        have := hx.1
        rw [Bool.and_eq_true] at this
        exact this.2
      show JSON_Print (reparseBody k) true
          ++ JSON_PrintRest (reparseElems rest)
        = JSON_Print k true ++ JSON_PrintRest rest
      rw [JSON_Print_name_split (reparseBody k) true,
        JSON_Print_name_split k true, reparseBody_nname k, hkn,
        withName_self (reparseBody k) (reparseBody_nname k),
        printBody k hwk, printElemsRest rest hx.2]

/-- Reparsed object members print as the original members (first member,
no leading comma): the re-attached key prints the same name prefix. -/
theorem printMembersFirst : ∀ kids : List JNode, wfMembers kids = true →
    JSON_PrintFirst (reparseMembers kids) = JSON_PrintFirst kids
  | [] => by
      intro _
      rfl
  | k :: rest => by
      intro hwf
      cases hname : k.nname with
      | none => simp [wfMembers, hname] at hwf
      | some s =>
          have hx : wfString s = true ∧ wfBody k = true ∧
              wfMembers rest = true := by
            have := hwf
            simp only [wfMembers, hname, Bool.and_eq_true] at this
            exact ⟨this.1.1, this.1.2, this.2⟩
          show JSON_Print ((reparseBody k).withName k.nname) false
              ++ JSON_PrintRest (reparseMembers rest)
            = JSON_Print k false ++ JSON_PrintRest rest
          rw [JSON_Print_name_split ((reparseBody k).withName k.nname) false,
            JSON_Print_name_split k false, withName_nname,
            withName_withName,
            withName_self (reparseBody k) (reparseBody_nname k),
            printBody k hx.2.1, printMembersRest rest hx.2.2]

/-- Reparsed object members print as the original members (later members,
leading comma). -/
theorem printMembersRest : ∀ kids : List JNode, wfMembers kids = true →
    JSON_PrintRest (reparseMembers kids) = JSON_PrintRest kids
  | [] => by
      intro _
      rfl
  | k :: rest => by
      intro hwf
      cases hname : k.nname with
      | none => simp [wfMembers, hname] at hwf
      | some s =>
          have hx : wfString s = true ∧ wfBody k = true ∧
              wfMembers rest = true := by
            have := hwf
            simp only [wfMembers, hname, Bool.and_eq_true] at this
            exact ⟨this.1.1, this.1.2, this.2⟩
          show JSON_Print ((reparseBody k).withName k.nname) true
              ++ JSON_PrintRest (reparseMembers rest)
            = JSON_Print k true ++ JSON_PrintRest rest
          rw [JSON_Print_name_split ((reparseBody k).withName k.nname) true,
            JSON_Print_name_split k true, withName_nname,
            withName_withName,
            withName_self (reparseBody k) (reparseBody_nname k),
            printBody k hx.2.1, printMembersRest rest hx.2.2]
end

theorem wfRoot_body (t : JNode) (h : wfRoot t = true) : wfBody t = true := by
  cases t with
  | JVar tag nm v => simp [wfRoot] at h
  | JArray nm cnt kids lt =>
      cases nm with
      | some s => simp [wfRoot] at h
      | none => simpa [wfRoot] using h
  | JObject nm cnt kids lt =>
      cases nm with
      | some s => simp [wfRoot] at h
      | none => simpa [wfRoot] using h

theorem wfRoot_name (t : JNode) (h : wfRoot t = true) : t.nname = none := by
  cases t with
  | JVar tag nm v => simp [wfRoot] at h
  | JArray nm cnt kids lt =>
      cases nm with
      | some s => simp [wfRoot] at h
      | none => rfl
  | JObject nm cnt kids lt =>
      cases nm with
      | some s => simp [wfRoot] at h
      | none => rfl

/-- C2 (counterexample): a tree built purely via the Tree Algebra
constructors - the empty array `JSON_Array(NULL)` - serializes to `[]`,
but `JSON_ProcessBuffer` returns `NULL` on that text (the yacc grammar
derives no empty `value_list`), so the second serialization of the claimed
round trip never happens: the round trip does not hold for every
constructor-built tree. -/
theorem roundtrip_counterexample :
    JSON_Print (JSON_Array none) false = "[]".data ∧
    JSON_ProcessBuffer (some (JSON_Print (JSON_Array none) false)) none
      = none :=
  ⟨by decide, by rfl⟩

/-- C2 (amended): for every round-trip-safe tree - an unnamed array or
object root, every container non-empty, array elements unnamed, object
members named with quote-, backslash-, and NUL-free strings, scalars
restricted to 16-bit unsigned values, 32-bit unsigned values at most
`INT32_MAX`, safe strings, and booleans that are true (a false one prints
`false ` whose trailing space the scanner simply skips, so it survives
too) - serializing with `JSON_Print`, parsing that text with
`JSON_ProcessBuffer`, and serializing the returned root again yields text
byte-identical to the first serialization. -/
theorem serialize_parse_serialize (t : JNode) (h : wfRoot t = true) :
    ∃ r, JSON_ProcessBuffer (some (JSON_Print t false)) none = some r ∧
      JSON_Print r false = JSON_Print t false := by
  have hb : wfBody t = true := wfRoot_body t h
  have hn : t.nname = none := wfRoot_name t h
  have hnil : tokenize ([] : List Char) = [] := rfl
  have htok : tokenize (JSON_Print t false) = tokensBody t := by
    have hlex := lexBody t hb [] trivial
    rw [withName_self t hn] at hlex
    simpa [hnil] using hlex
  refine ⟨reparseBody t, ?_, ?_⟩
  · simp only [JSON_ProcessBuffer, htok, yyparse_model, parse_root t h]
    rfl
  · rw [printBody t hb, withName_self t hn]

theorem serialize_parse_serialize_witness :
    wfRoot (JNode.JArray none 0
      [JNode.JVar .JSON_VAR none ⟨.JVARTYPE_UINT16, 2, .ui 7⟩] false) = true
    ∧ ∃ r, JSON_ProcessBuffer
        (some (JSON_Print (JNode.JArray none 0
          [JNode.JVar .JSON_VAR none ⟨.JVARTYPE_UINT16, 2, .ui 7⟩] false)
          false)) none = some r
      ∧ JSON_Print r false
        = JSON_Print (JNode.JArray none 0
            [JNode.JVar .JSON_VAR none ⟨.JVARTYPE_UINT16, 2, .ui 7⟩] false)
            false :=
  ⟨by decide,
   serialize_parse_serialize
     (JNode.JArray none 0
       [JNode.JVar .JSON_VAR none ⟨.JVARTYPE_UINT16, 2, .ui 7⟩] false)
     (by decide)⟩
